import Mathlib

/-!
Verification of the course-catalog core of `EnhancementTwo.cpp`
(binary search tree + hash map catalog, dependency graph engine with
DFS cycle detection and topological linearization).

The C++ source is embedded shallowly:

* `Course` mirrors `struct Course` (the two traversal flags are carried
  along; the enhanced program declares but never reads them outside the
  test harness).
* `courseMap : unordered_map<string, Course*>` is an association list
  `CMap`; `courseMap[k] = c` is `mapInsert`, `courseMap.find` is
  `findCourse`.
* The BST of `Node` is `Tree`; `addNode` follows the source (`<` goes
  left, otherwise right, so equal keys descend right).
* C++ exceptions become `Except Err`.
* The two depth-first traversals (`hasCycle`, `topologicalSortUtil`)
  recurse on a fuel parameter; fuel exhaustion yields `none` and is
  proved unreachable for the fuel the public wrappers pass
  (`m.length + 1`), mirroring the unbounded C++ recursion.

Catalog states produced by the program bind every key to a course whose
`courseId` field equals the key, with no duplicate keys; `WF` captures
this and is assumed where a theorem needs it.
-/

namespace CourseCatalog

/-- Mirror of `struct Course` in `EnhancementTwo.cpp`. -/
structure Course where
  courseId : String
  courseTitle : String
  prereqs : List String
  dependentCourses : List String
  isVisited : Bool
  isProcessing : Bool
deriving DecidableEq, Repr

/-- Default-constructed course (flags false, lists empty), as in the
C++ constructors. -/
def mkCourse (id title : String) (prereqs : List String) : Course :=
  { courseId := id, courseTitle := title, prereqs := prereqs,
    dependentCourses := [], isVisited := false, isProcessing := false }

/-- The `unordered_map<string, Course*> courseMap`, as an association
list. -/
abbrev CMap := List (String × Course)

/-- `BinarySearchTree::FindCourse`: hash-map lookup, `nullptr` becomes
`none`. -/
def findCourse (m : CMap) (k : String) : Option Course :=
  (m.find? (fun e => e.1 == k)).map (·.2)

/-- Well-formedness of catalog states the program can actually build:
every binding `(k, c)` has `c.courseId = k` (Insert stores
`courseMap[course->courseId] = course`) and keys are unique
(`unordered_map` semantics). -/
def WF (m : CMap) : Prop :=
  (∀ e ∈ m, e.2.courseId = e.1) ∧ (m.map Prod.fst).Nodup

instance : DecidablePred WF := fun m => by
  unfold WF; infer_instance

/-- `courseMap[k] = c`: replace the existing binding for `k`, or append
a new one. -/
def mapInsert (m : CMap) (k : String) (c : Course) : CMap :=
  match m with
  | [] => [(k, c)]
  | e :: rest => if e.1 = k then (k, c) :: rest else e :: mapInsert rest k c

/-- `BinarySearchTree::isValidCourseId` from `EnhancementTwo.cpp`:
empty or longer than 20 characters is rejected; then the first `while`
loop counts the leading alphabetic characters (must be 2–4) and the
second loop requires everything after them to be at least 3 digits. -/
def isValidCourseId (courseId : String) : Bool :=
  if courseId.isEmpty || courseId.length > 20 then false
  else if (courseId.data.takeWhile Char.isAlpha).length < 2
      || (courseId.data.takeWhile Char.isAlpha).length > 4 then false
  else if (courseId.data.drop
      (courseId.data.takeWhile Char.isAlpha).length).any
      (fun ch => !ch.isDigit) then false
  else if (courseId.data.drop
      (courseId.data.takeWhile Char.isAlpha).length).length < 3 then false
  else true

/-- The key format stated by the spec, written from its words: 2–4
alphabetic characters followed by 3 or more digit characters, nothing
else, and at most 20 characters in total. -/
def SpecValidKey (s : String) : Prop :=
  ∃ a b : List Char,
    s.data = a ++ b ∧
    2 ≤ a.length ∧ a.length ≤ 4 ∧ (∀ ch ∈ a, ch.isAlpha) ∧
    3 ≤ b.length ∧ (∀ ch ∈ b, ch.isDigit) ∧
    s.length ≤ 20

/-- Error kinds surfaced by the C++ exceptions: `InvalidKey` for the
`invalid_argument` thrown on a bad course-id format, `NotFound` for the
`invalid_argument` thrown on a lookup miss, `CycleDetected` for the
`runtime_error` thrown on a circular dependency. -/
inductive Err where
  | InvalidKey
  | NotFound
  | CycleDetected
deriving DecidableEq, Repr

/-- Mirror of `struct Node`: the BST over courses. -/
inductive Tree where
  | nil : Tree
  | node (left : Tree) (course : Course) (right : Tree) : Tree
deriving DecidableEq, Repr

/-- `BinarySearchTree::addNode` (with the `!root` case of `Insert`
folded in as the `nil` case): keys `<` the node go left, everything
else — including equal keys — goes right. -/
def addNode : Tree → Course → Tree
  | .nil, c => .node .nil c .nil
  | .node l x r, c =>
      if c.courseId < x.courseId then .node (addNode l c) x r
      else .node l x (addNode r c)

/-- In-order traversal, the order in which
`BinarySearchTree::printSampleSchedule` emits the catalog
(`enumerate`). -/
def inorder : Tree → List Course
  | .nil => []
  | .node l c r => inorder l ++ c :: inorder r

/-- The private state of `BinarySearchTree`: the tree root and the hash
map. -/
structure TreeState where
  root : Tree
  map : CMap
deriving Repr

/-- The empty catalog (`BinarySearchTree()`). -/
def emptyState : TreeState := { root := .nil, map := [] }

/-- `BinarySearchTree::Insert`: rejects an invalid course id with
`invalid_argument`, then stores the course in the hash map
(overwriting any previous binding of the same key) and adds a node to
the BST.  The C++ null-pointer guard has no counterpart here. -/
def Insert (s : TreeState) (c : Course) : Except Err TreeState :=
  if isValidCourseId c.courseId then
    .ok { map := mapInsert s.map c.courseId c, root := addNode s.root c }
  else
    .error .InvalidKey

/-- Keys of the tree in enumeration order. -/
def treeKeys (t : Tree) : List String :=
  (inorder t).map Course.courseId

/-- Search-tree ordering invariant matching `addNode`: keys in the left
subtree are strictly below the node, keys in the right subtree are at
or above it (equal keys descend right). -/
def BSTInv : Tree → Prop
  | .nil => True
  | .node l x r =>
      (∀ k ∈ treeKeys l, k < x.courseId) ∧
      (∀ k ∈ treeKeys r, x.courseId ≤ k) ∧ BSTInv l ∧ BSTInv r

/-- One `Insert` call as performed by a driver that catches the
exception and keeps going: on failure the state is unchanged. -/
def insertRun (s : TreeState) (c : Course) : TreeState :=
  match Insert s c with
  | .ok s' => s'
  | .error _ => s

/-- A whole load: insert the given records in order, starting from the
empty catalog. -/
def insertAll (cs : List Course) : TreeState :=
  cs.foldl insertRun emptyState

/-- The tree component of one `Insert` call. -/
def insertTree (t : Tree) (c : Course) : Tree :=
  if isValidCourseId c.courseId then addNode t c else t

/-! ### Dependency graph engine -/

/-- First loop of `BuildDependencyGraph`: clear every course's
`dependentCourses`. -/
def clearDependents (m : CMap) : CMap :=
  m.map (fun e => (e.1, { e.2 with dependentCourses := [] }))

/-- Effect of one `dependentCourses.push_back` on a single map entry:
the entry keyed `p` gains `depId` at the end of its dependent list,
every other entry is untouched. -/
def entryApp (p depId : String) (e : String × Course) : String × Course :=
  if e.1 = p then
    (e.1, { e.2 with dependentCourses := e.2.dependentCourses ++ [depId] })
  else e

/-- `prereq->dependentCourses.push_back(courseId)` applied to the
course stored under key `p`. -/
def appendDependent (m : CMap) (p : String) (depId : String) : CMap :=
  m.map (entryApp p depId)

/-- Cumulative effect of the dependent-building pass for the course
list `rs` on one map entry (used to characterise
`BuildDependencyGraph`). -/
def entryBuild (rs : List Course) (e : String × Course) : String × Course :=
  rs.foldl
    (fun e r => r.prereqs.foldl (fun e p => entryApp p r.courseId e) e) e

/-- Inner loop of `BuildDependencyGraph` for one course `r`: for every
prerequisite that resolves, record `r` as a dependent of it. -/
def addEdgesFor (m : CMap) (r : Course) : CMap :=
  r.prereqs.foldl
    (fun acc p =>
      match findCourse acc p with
      | some _ => appendDependent acc p r.courseId
      | none => acc)
    m

/-- `BinarySearchTree::BuildDependencyGraph`: clear all dependents,
then walk every course and push its key onto each resolved
prerequisite's dependent list.  The iteration reads each course's
`prereqs`, which the pass never modifies, so iterating over the cleared
snapshot is faithful to the C++ in-place loop. -/
def BuildDependencyGraph (m : CMap) : CMap :=
  (clearDependents m).foldl (fun acc e => addEdgesFor acc e.2)
    (clearDependents m)

/-- `BinarySearchTree::validatePrerequisites`: the message of the
`runtime_error` thrown at the first prerequisite that does not resolve,
or `none` when every prerequisite resolves. -/
def validatePrerequisites (m : CMap) (course : Course) : Option String :=
  (course.prereqs.find? (fun p => (findCourse m p).isNone)).map
    (fun p => "Invalid prerequisite: " ++ p ++ " for course " ++ course.courseId)

/-- `BinarySearchTree::ValidateAllPrerequisites`: validate courses one
after the other; the first failure is printed and the function returns
`false` at once.  The result records the returned Bool and the error
messages printed to `cerr`. -/
def ValidateAllPrerequisites (m : CMap) : Bool × List String :=
  go m
where
  go : CMap → Bool × List String
    | [] => (true, [])
    | e :: rest =>
        match validatePrerequisites m e.2 with
        | some msg => (false, [msg])
        | none => go rest

/-- A resolved prerequisite edge: the catalog stores a record at `a`
listing `b` among its prerequisites, and `b` itself resolves.  These
are exactly the edges the two DFS traversals follow. -/
def Edge (m : CMap) (a b : String) : Prop :=
  ∃ ca, findCourse m a = some ca ∧ b ∈ ca.prereqs ∧ (findCourse m b).isSome

/-- Reachability along resolved prerequisite edges. -/
def Reaches (m : CMap) : String → String → Prop :=
  Relation.ReflTransGen (Edge m)

/-- A directed cycle of resolved prerequisite edges reachable from
`k`. -/
def CycleReachable (m : CMap) (k : String) : Prop :=
  ∃ x, Reaches m k x ∧ Relation.TransGen (Edge m) x x

/-- No cycle is reachable from `x` along resolved prerequisite
edges. -/
def NoCycleFrom (m : CMap) (x : String) : Prop :=
  ∀ y, Reaches m x y → ¬ Relation.TransGen (Edge m) y y

/-- The keys present in the catalog, as a finite set. -/
def keysF (m : CMap) : Finset String :=
  (m.map Prod.fst).toFinset

/-- Finished/unfinished invariant of the cycle DFS: every visited node
that is off the recursion stack has no reachable cycle. -/
def GrayInv (m : CMap) (v r : Finset String) : Prop :=
  ∀ x ∈ v, x ∉ r → NoCycleFrom m x

/-- Invariant tying the visited set, the output stack and the ghost set
`G` of currently-active (entered, not yet pushed) keys together during
the topological DFS: the visited set is exactly the pushed keys plus
`G`; pushed keys are distinct and not active; everything reachable from
a pushed course is visited and not active; no earlier-pushed course
depends on a later-pushed one; and every pushed course is the record
the catalog stores at its key. -/
def StackOK (m : CMap) (G v : Finset String) (s : List Course) : Prop :=
  v = (s.map Course.courseId).toFinset ∪ G ∧
  (s.map Course.courseId).Nodup ∧
  (∀ id ∈ s.map Course.courseId, id ∉ G) ∧
  (∀ b ∈ s, ∀ y, Reaches m b.courseId y → y ∈ v ∧ y ∉ G) ∧
  List.Pairwise
    (fun a b => ¬ Relation.TransGen (Edge m) b.courseId a.courseId) s ∧
  (∀ b ∈ s, findCourse m b.courseId = some b)

/-- The `for` loop over `course->prereqs` inside `hasCycle`,
parameterised by the recursive call (`sub`): an edge into the recursion
stack is a cycle (return `true` at once), a visited edge is skipped,
an unvisited resolved edge is recursed into, and a dangling edge is
skipped.  The `visited`/`recursionStack` sets are threaded through like
the C++ reference parameters. -/
def cycleLoop (m : CMap)
    (sub : Course → Finset String → Finset String →
      Option (Bool × Finset String × Finset String)) :
    List String → Finset String → Finset String →
    Option (Bool × Finset String × Finset String)
  | [], visited, recStack => some (false, visited, recStack)
  | p :: rest, visited, recStack =>
      match findCourse m p with
      | none => cycleLoop m sub rest visited recStack
      | some prereq =>
          if p ∈ recStack then some (true, visited, recStack)
          else if p ∈ visited then cycleLoop m sub rest visited recStack
          else
            match sub prereq visited recStack with
            | none => none
            | some (true, v, r) => some (true, v, r)
            | some (false, v, r) => cycleLoop m sub rest v r

/-- `BinarySearchTree::hasCycle` (the private DFS): mark the course
visited and on the recursion stack, scan its prerequisites with
`cycleLoop`, then take the course off the recursion stack.  The fuel
argument only bounds the recursion depth; `none` (exhaustion) is
proved unreachable for the fuel the public wrapper passes. -/
def hasCycleAux (m : CMap) :
    Nat → Course → Finset String → Finset String →
    Option (Bool × Finset String × Finset String)
  | 0, _, _, _ => none
  | fuel + 1, c, visited, recStack =>
      match cycleLoop m (hasCycleAux m fuel) c.prereqs
          (insert c.courseId visited) (insert c.courseId recStack) with
      | none => none
      | some (true, v, r) => some (true, v, r)
      | some (false, v, r) => some (false, v, r.erase c.courseId)

/-- `BinarySearchTree::HasPrerequisiteCycle`: look the key up (throwing
`NotFound` when absent) and run the DFS with empty `visited` and
`recursionStack`.  The fuel `m.length + 1` is proved sufficient for
well-formed catalogs. -/
def HasPrerequisiteCycle (m : CMap) (courseId : String) : Except Err Bool :=
  match findCourse m courseId with
  | none => .error .NotFound
  | some course =>
      match hasCycleAux m (m.length + 1) course ∅ ∅ with
      | some (b, _, _) => .ok b
      | none => .ok false

/-- The `for` loop over prerequisites inside `topologicalSortUtil`,
which is also the top-level loop of `GetPrerequisiteOrder`,
parameterised by the recursive call (`sub`): dangling prerequisites and
visited ones are skipped, unvisited resolved ones are recursed into. -/
def topoLoop (m : CMap)
    (sub : Course → Finset String → List Course →
      Option (Finset String × List Course)) :
    List String → Finset String → List Course →
    Option (Finset String × List Course)
  | [], visited, stack => some (visited, stack)
  | p :: rest, visited, stack =>
      match findCourse m p with
      | none => topoLoop m sub rest visited stack
      | some prereq =>
          if p ∈ visited then topoLoop m sub rest visited stack
          else
            match sub prereq visited stack with
            | none => none
            | some (v, st) => topoLoop m sub rest v st

/-- `BinarySearchTree::topologicalSortUtil`: mark the course visited,
recurse into each unvisited resolved prerequisite, then push the course
on the stack (modelled with the most recent push at the head). -/
def topoAux (m : CMap) :
    Nat → Course → Finset String → List Course →
    Option (Finset String × List Course)
  | 0, _, _, _ => none
  | fuel + 1, c, visited, stack =>
      match topoLoop m (topoAux m fuel) c.prereqs
          (insert c.courseId visited) stack with
      | none => none
      | some (v, st) => some (v, c :: st)

/-- `BinarySearchTree::GetPrerequisiteOrder`: `NotFound` on an absent
key, then the cycle check (before any linearization), then the
post-order DFS over the start course's prerequisites.  Draining the
stack into a vector and reversing it yields the chronological push
order, i.e. `stack.reverse` for a head-is-top stack. -/
def GetPrerequisiteOrder (m : CMap) (courseId : String) :
    Except Err (List Course) :=
  match findCourse m courseId with
  | none => .error .NotFound
  | some course =>
      match HasPrerequisiteCycle m courseId with
      | .error e => .error e
      | .ok true => .error .CycleDetected
      | .ok false =>
          match topoLoop m (topoAux m (m.length + 1)) course.prereqs ∅ [] with
          | none => .ok []
          | some (_, stack) => .ok stack.reverse

/-- A call to `HasPrerequisiteCycle` observed together with the object
state after the call.  The C++ method bodies on this path contain no
assignment to any `Course` field or to the containers, so the state
after the call is the state before it. -/
def hasCycleRun (st : TreeState) (k : String) :
    Except Err Bool × TreeState :=
  (HasPrerequisiteCycle st.map k, st)

/-- A call to `GetPrerequisiteOrder` observed together with the object
state after the call. -/
def getPrerequisiteOrderRun (st : TreeState) (k : String) :
    Except Err (List Course) × TreeState :=
  (GetPrerequisiteOrder st.map k, st)

/-! ### Concrete data used by witnesses and counterexamples -/

/-- Chain catalog: `A` has no prerequisites, `B` requires `A`, `C`
requires `B`. -/
def courseA : Course := mkCourse "AAA100" "Course A" []

def courseB : Course := mkCourse "BBB100" "Course B" ["AAA100"]

def courseC : Course := mkCourse "CCC100" "Course C" ["BBB100"]

def chainCat : CMap :=
  [("AAA100", courseA), ("BBB100", courseB), ("CCC100", courseC)]

/-- Two-cycle catalog: `A` requires `B` and `B` requires `A`. -/
def cycloA : Course := mkCourse "AAA100" "Course A" ["BBB100"]

def cycloB : Course := mkCourse "BBB100" "Course B" ["AAA100"]

def cycleCat : CMap := [("AAA100", cycloA), ("BBB100", cycloB)]

/-- Duplicate-key insertion scenario. -/
def dupOld : Course := mkCourse "CS100" "Old Title" []

def dupNew : Course := mkCourse "CS100" "New Title" []

def dupState1 : TreeState := insertRun emptyState dupOld

def dupState2 : TreeState := insertRun dupState1 dupNew

/-- A catalog whose single course lists itself as a prerequisite. -/
def selfRefCourse : Course := mkCourse "CS100" "Self Referential" ["CS100"]

def selfRefCat : CMap := [("CS100", selfRefCourse)]

/-- Catalog with one resolved and one dangling prerequisite. -/
def depA : Course := mkCourse "AAA100" "Dep A" []

def depB : Course := mkCourse "BBB100" "Dep B" ["AAA100", "ZZZ999"]

def depCat : CMap := [("AAA100", depA), ("BBB100", depB)]

/-! ### Character and takeWhile facts for the key validator -/

theorem isDigit_not_isAlpha {c : Char} (h : c.isDigit = true) :
    c.isAlpha = false := by
  simp only [Char.isDigit, Char.isAlpha, Char.isUpper, Char.isLower] at h ⊢
  simp only [Bool.and_eq_true, decide_eq_true_eq, Bool.or_eq_false_iff,
    Bool.and_eq_false_iff, decide_eq_false_iff_not,
    UInt32.le_def, UInt32.lt_def, BitVec.le_def, BitVec.lt_def,
    show (UInt32.toBitVec 48).toNat = 48 from rfl,
    show (UInt32.toBitVec 57).toNat = 57 from rfl,
    show (UInt32.toBitVec 65).toNat = 65 from rfl,
    show (UInt32.toBitVec 90).toNat = 90 from rfl,
    show (UInt32.toBitVec 97).toNat = 97 from rfl,
    show (UInt32.toBitVec 122).toNat = 122 from rfl] at h ⊢
  omega

theorem takeWhile_append_all {p : Char → Bool} {a : List Char}
    (b : List Char) (ha : ∀ ch ∈ a, p ch = true) :
    (a ++ b).takeWhile p = a ++ b.takeWhile p := by
  induction a with
  | nil => rfl
  | cons x xs ih =>
      simp only [List.cons_append, List.takeWhile_cons,
        ha x (List.mem_cons_self x xs)]
      exact congrArg (x :: ·) (ih fun ch h => ha ch (List.mem_cons_of_mem _ h))

theorem drop_takeWhile_length (p : Char → Bool) (l : List Char) :
    l.drop (l.takeWhile p).length = l.dropWhile p := by
  induction l with
  | nil => rfl
  | cons x xs ih =>
      by_cases h : p x = true <;>
        simp [List.takeWhile_cons, List.dropWhile_cons, h, ih]

theorem isValid_iff_specValid (s : String) :
    isValidCourseId s = true ↔ SpecValidKey s := by
  have hsdata : s.length = s.data.length := rfl
  constructor
  · intro h
    unfold isValidCourseId at h
    split at h
    · exact absurd h (by simp)
    rename_i hlen
    split at h
    · exact absurd h (by simp)
    rename_i hcnt
    split at h
    · exact absurd h (by simp)
    rename_i hdig
    split at h
    · exact absurd h (by simp)
    rename_i hrest
    simp only [Bool.or_eq_true, not_or, String.isEmpty_iff,
      decide_eq_true_eq, not_lt] at hlen hcnt hrest
    refine ⟨s.data.takeWhile Char.isAlpha,
      s.data.drop (s.data.takeWhile Char.isAlpha).length, ?_, hcnt.1,
      hcnt.2, ?_, hrest, ?_, hlen.2⟩
    · rw [drop_takeWhile_length]
      exact (List.takeWhile_append_dropWhile Char.isAlpha s.data).symm
    · intro ch hch
      exact List.mem_takeWhile_imp hch
    · intro ch hch
      by_contra hd
      exact hdig (List.any_eq_true.2 ⟨ch, hch, by simp [hd]⟩)
  · rintro ⟨a, b, hsplit, ha2, ha4, haall, hb3, hball, hlen⟩
    have hbne : b ≠ [] := by
      intro hb; rw [hb] at hb3; simp at hb3
    obtain ⟨d, bs, rfl⟩ := List.exists_cons_of_ne_nil hbne
    have hdna : Char.isAlpha d = false :=
      isDigit_not_isAlpha (hball d (List.mem_cons_self d bs))
    have htake : s.data.takeWhile Char.isAlpha = a := by
      rw [hsplit, takeWhile_append_all _ haall, List.takeWhile_cons, hdna]
      simp
    have hslen : s.length = a.length + (d :: bs).length := by
      rw [hsdata, hsplit, List.length_append]
    have hne : s.isEmpty = false := by
      rw [Bool.eq_false_iff]
      intro he
      have hd0 : s.data = [] := by
        have : s = "" := (String.isEmpty_iff s).1 he
        rw [this]
      rw [hd0] at hsplit
      exact hbne (List.append_eq_nil.1 hsplit.symm).2
    have hdigall : ((d :: bs).any fun ch => !ch.isDigit) = false := by
      simp only [List.any_eq_false]
      intro ch hch
      simp [hball ch hch]
    have c0 : (s.isEmpty || decide (s.length > 20)) = false := by
      simp only [hne, Bool.false_or, decide_eq_false_iff_not, not_lt]
      omega
    have c1 : (decide (a.length < 2) || decide (a.length > 4)) = false := by
      simp only [Bool.or_eq_false_iff, decide_eq_false_iff_not, not_lt]
      omega
    have hb2 : 2 ≤ bs.length := by
      simp only [List.length_cons] at hb3
      omega
    have c3 : decide ((d :: bs).length < 3) = false := by
      simp only [List.length_cons, decide_eq_false_iff_not, not_lt]
      omega
    unfold isValidCourseId
    rw [htake, hsplit, List.drop_left]
    simp [c0, c1, hdigall, c3, hb2]

/-! ### Hash-map insertion -/

theorem findCourse_mapInsert_self (m : CMap) (k : String) (c : Course) :
    findCourse (mapInsert m k c) k = some c := by
  induction m with
  | nil => simp [mapInsert, findCourse]
  | cons e rest ih =>
      by_cases h : e.1 = k
      · simp [mapInsert, h, findCourse]
      · simp only [mapInsert, if_neg h]
        unfold findCourse at ih ⊢
        rw [List.find?_cons_of_neg]
        · exact ih
        · simp [h]

/-! ### BST enumeration order -/

theorem inorder_addNode_perm (t : Tree) (c : Course) :
    List.Perm (inorder (addNode t c)) (c :: inorder t) := by
  induction t with
  | nil => simp [addNode, inorder]
  | node l x r ihl ihr =>
      by_cases h : c.courseId < x.courseId
      · simp only [addNode, if_pos h, inorder]
        exact ihl.append_right _
      · simp only [addNode, if_neg h, inorder]
        refine List.Perm.trans (List.Perm.append_left _ (List.Perm.cons _ ihr))
          ?_
        have := @List.perm_middle _ c (inorder l ++ [x]) (inorder r)
        simpa using this

theorem addNode_node_not_lt {c x : Course} (l r : Tree)
    (h : ¬ c.courseId < x.courseId) :
    addNode (Tree.node l x r) c = Tree.node l x (addNode r c) := by
  have hm : addNode (Tree.node l x r) c
      = if c.courseId < x.courseId then Tree.node (addNode l c) x r
        else Tree.node l x (addNode r c) := rfl
  rw [hm, if_neg h]

theorem treeKeys_addNode_perm (t : Tree) (c : Course) :
    List.Perm (treeKeys (addNode t c)) (c.courseId :: treeKeys t) := by
  simpa [treeKeys] using (inorder_addNode_perm t c).map Course.courseId

theorem BSTInv_addNode {t : Tree} (c : Course) (h : BSTInv t) :
    BSTInv (addNode t c) := by
  induction t with
  | nil => exact ⟨by simp [treeKeys, inorder], by simp [treeKeys, inorder],
      trivial, trivial⟩
  | node l x r ihl ihr =>
      obtain ⟨hl, hr, hbl, hbr⟩ := h
      by_cases hlt : c.courseId < x.courseId
      · simp only [addNode, if_pos hlt]
        refine ⟨?_, hr, ihl hbl, hbr⟩
        intro k hk
        rcases List.mem_cons.1 (((treeKeys_addNode_perm l c).mem_iff).1 hk)
          with hk2 | hk2
        · rw [hk2]; exact hlt
        · exact hl k hk2
      · simp only [addNode, if_neg hlt]
        refine ⟨hl, ?_, hbl, ihr hbr⟩
        intro k hk
        rcases List.mem_cons.1 (((treeKeys_addNode_perm r c).mem_iff).1 hk)
          with hk2 | hk2
        · rw [hk2]; exact le_of_not_lt hlt
        · exact hr k hk2

theorem sorted_le_treeKeys {t : Tree} (h : BSTInv t) :
    List.Pairwise (· ≤ ·) (treeKeys t) := by
  induction t with
  | nil => simp [treeKeys, inorder]
  | node l x r ihl ihr =>
      obtain ⟨hl, hr, hbl, hbr⟩ := h
      have : treeKeys (Tree.node l x r)
          = treeKeys l ++ x.courseId :: treeKeys r := by
        simp [treeKeys, inorder]
      rw [this, List.pairwise_append]
      refine ⟨ihl hbl, ?_, ?_⟩
      · rw [List.pairwise_cons]
        exact ⟨hr, ihr hbr⟩
      · intro a ha b hb
        rcases List.mem_cons.1 hb with hb | hb
        · rw [hb]; exact le_of_lt (hl a ha)
        · exact le_of_lt (lt_of_lt_of_le (hl a ha) (hr b hb))

theorem pairwise_lt_of_le_nodup {l : List String}
    (hs : List.Pairwise (· ≤ ·) l) (hn : l.Nodup) :
    List.Pairwise (· < ·) l :=
  (hs.and hn).imp (fun hab => lt_of_le_of_ne hab.1 hab.2)

theorem insertRun_root (s : TreeState) (c : Course) :
    (insertRun s c).root = insertTree s.root c := by
  unfold insertRun Insert insertTree
  by_cases h : isValidCourseId c.courseId = true
  · rw [if_pos h, if_pos h]
  · rw [if_neg h, if_neg h]

theorem insertAll_root (cs : List Course) :
    (insertAll cs).root = cs.foldl insertTree Tree.nil := by
  have main : ∀ (cs : List Course) (s : TreeState),
      (cs.foldl insertRun s).root = cs.foldl insertTree s.root := by
    intro cs
    induction cs with
    | nil => intro s; rfl
    | cons c rest ih =>
        intro s
        simp only [List.foldl_cons]
        rw [ih, insertRun_root]
  exact main cs emptyState

theorem foldl_insertTree_inv (cs : List Course) :
    ∀ t : Tree, BSTInv t → (treeKeys t).Nodup →
    (∀ c ∈ cs, c.courseId ∉ treeKeys t) →
    (cs.map Course.courseId).Nodup →
    BSTInv (cs.foldl insertTree t) ∧
      (treeKeys (cs.foldl insertTree t)).Nodup := by
  induction cs with
  | nil => exact fun t hb hn _ _ => ⟨hb, hn⟩
  | cons c rest ih =>
      intro t hb hn hfresh hcs
      simp only [List.foldl_cons]
      simp only [List.map_cons, List.nodup_cons] at hcs
      by_cases hv : isValidCourseId c.courseId = true
      · have ht' : insertTree t c = addNode t c := by
          unfold insertTree; rw [if_pos hv]
        rw [ht']
        refine ih _ (BSTInv_addNode c hb) ?_ ?_ hcs.2
        · rw [List.Perm.nodup_iff (treeKeys_addNode_perm t c)]
          exact List.nodup_cons.2 ⟨hfresh c (List.mem_cons_self c rest), hn⟩
        · intro d hd hdmem
          rcases List.mem_cons.1
              (((treeKeys_addNode_perm t c).mem_iff).1 hdmem) with hdk | hdk
          · exact hcs.1 (by rw [← hdk]; exact List.mem_map_of_mem _ hd)
          · exact hfresh d (List.mem_cons_of_mem _ hd) hdk
      · have ht' : insertTree t c = t := by
          unfold insertTree; rw [if_neg hv]
        rw [ht']
        exact ih _ hb hn (fun d hd => hfresh d (List.mem_cons_of_mem _ hd))
          hcs.2

/-! ### Claim theorems: catalog index -/

/-- C5: the key-format check accepts a string exactly when it is 2–4
alphabetic characters followed by 3 or more digit characters with
nothing else and at most 20 characters in total; and inserting a course
whose key fails the check fails with `InvalidKey`, producing no new
catalog state. -/
theorem claim_C5_key_validation :
    (∀ s : String, isValidCourseId s = true ↔ SpecValidKey s) ∧
    (∀ (st : TreeState) (c : Course), isValidCourseId c.courseId = false →
      Insert st c = Except.error Err.InvalidKey) := by
  refine ⟨isValid_iff_specValid, ?_⟩
  intro st c h
  unfold Insert
  rw [h]
  simp

/-- Witness for C5 at the concrete key `"1"` (from the spec's own
example list) and the empty catalog. -/
theorem claim_C5_key_validation_witness :
    isValidCourseId "1" = false ∧
    Insert emptyState (mkCourse "1" "Intro" []) = Except.error Err.InvalidKey := by
  refine ⟨by decide, ?_⟩
  exact claim_C5_key_validation.2 emptyState (mkCourse "1" "Intro" []) (by decide)

/-- Counterexample to C4 as stated: inserting the already-present key
`"CS100"` does not fail with a duplicate-key error — it succeeds, and
the hash map afterwards returns the new record, so the original
record's binding is overwritten. -/
theorem claim_C4_counterexample :
    findCourse dupState1.map "CS100" = some dupOld ∧
    Insert dupState1 dupNew = Except.ok dupState2 ∧
    findCourse dupState2.map "CS100" = some dupNew ∧
    dupNew ≠ dupOld := by
  refine ⟨by decide, rfl, by decide, by decide⟩

/-- C4 (amended): inserting a record whose (structurally valid) key is
already present does not fail; the hash-map binding for that key is
replaced by the new record (last-inserted-wins). -/
theorem claim_C4_duplicate_insert_overwrites
    (st : TreeState) (c oldc : Course)
    (hpres : findCourse st.map c.courseId = some oldc)
    (hv : isValidCourseId c.courseId = true) :
    ∃ st', Insert st c = Except.ok st' ∧
      findCourse st'.map c.courseId = some c := by
  unfold Insert
  rw [hv]
  exact ⟨{ root := addNode st.root c, map := mapInsert st.map c.courseId c },
    by simp, findCourse_mapInsert_self _ _ _⟩

/-- Witness for the amended C4 on the duplicate-key scenario. -/
theorem claim_C4_duplicate_insert_overwrites_witness :
    findCourse dupState1.map "CS100" = some dupOld ∧
    isValidCourseId "CS100" = true ∧
    ∃ st', Insert dupState1 dupNew = Except.ok st' ∧
      findCourse st'.map "CS100" = some dupNew := by
  exact ⟨by decide, by decide,
    claim_C4_duplicate_insert_overwrites dupState1 dupNew dupOld
      (by decide) (by decide)⟩

/-- C10: inserting a record whose key is already present succeeds, the
hash map afterwards returns the most recently inserted record, the tree
gains one more node holding the new record (so enumeration lists both
the old record and the new one), and `addNode` sends an equal key into
the right subtree. -/
theorem claim_C10_duplicate_insert_keeps_both
    (st : TreeState) (c oldc : Course)
    (hpres : findCourse st.map c.courseId = some oldc)
    (hmem : oldc ∈ inorder st.root)
    (hv : isValidCourseId c.courseId = true) :
    ∃ st', Insert st c = Except.ok st' ∧
      findCourse st'.map c.courseId = some c ∧
      st'.root = addNode st.root c ∧
      List.Perm (inorder st'.root) (c :: inorder st.root) ∧
      c ∈ inorder st'.root ∧ oldc ∈ inorder st'.root ∧
      (∀ l x r, x.courseId = c.courseId →
        addNode (Tree.node l x r) c = Tree.node l x (addNode r c)) := by
  unfold Insert
  rw [hv]
  refine ⟨{ root := addNode st.root c, map := mapInsert st.map c.courseId c },
    by simp, findCourse_mapInsert_self _ _ _, rfl,
    inorder_addNode_perm _ _, ?_, ?_, ?_⟩
  · rw [List.Perm.mem_iff (inorder_addNode_perm _ _)]
    exact List.mem_cons_self _ _
  · rw [List.Perm.mem_iff (inorder_addNode_perm _ _)]
    exact List.mem_cons_of_mem _ hmem
  · intro l x r hx
    exact addNode_node_not_lt l r (by rw [hx]; exact lt_irrefl _)

/-- Witness for C10 on the duplicate-key scenario. -/
theorem claim_C10_duplicate_insert_keeps_both_witness :
    findCourse dupState1.map "CS100" = some dupOld ∧
    dupOld ∈ inorder dupState1.root ∧
    ∃ st', Insert dupState1 dupNew = Except.ok st' ∧
      findCourse st'.map "CS100" = some dupNew ∧
      st'.root = addNode dupState1.root dupNew ∧
      List.Perm (inorder st'.root) (dupNew :: inorder dupState1.root) ∧
      dupNew ∈ inorder st'.root ∧ dupOld ∈ inorder st'.root ∧
      (∀ l x r, x.courseId = dupNew.courseId →
        addNode (Tree.node l x r) dupNew = Tree.node l x (addNode r dupNew)) := by
  exact ⟨by decide, by decide,
    claim_C10_duplicate_insert_keeps_both dupState1 dupNew dupOld
      (by decide) (by decide) (by decide)⟩

/-- C9: neither `hasCycle` nor `topologicalOrder` mutates the catalog:
the object state after either call — tree, hash map, and hence every
record's key, title, prerequisites, dependents and traversal flags —
is the state before the call.  (The method bodies on these paths
contain no assignment to any `Course` field.) -/
theorem claim_C9_queries_do_not_mutate (st : TreeState) (k : String) :
    (hasCycleRun st k).2 = st ∧ (getPrerequisiteOrderRun st k).2 = st :=
  ⟨rfl, rfl⟩

/-! ### Claim C6: enumeration order -/

/-- Counterexample to C6 as stated: inserting the (valid) key
`"CS100"` twice is a sequence of insertions after which enumeration
yields `["CS100", "CS100"]`, which is not strictly ascending. -/
theorem claim_C6_counterexample :
    ¬ List.Pairwise (· < ·) (treeKeys (insertAll [dupOld, dupNew]).root) := by
  have h1 : (insertAll [dupOld, dupNew]).root
      = insertTree (insertTree Tree.nil dupOld) dupNew := by
    rw [insertAll_root]
    rfl
  have e1 : insertTree Tree.nil dupOld = Tree.node Tree.nil dupOld Tree.nil := by
    unfold insertTree
    rw [if_pos (by decide)]
    rfl
  have e2 : insertTree (Tree.node Tree.nil dupOld Tree.nil) dupNew
      = Tree.node Tree.nil dupOld (Tree.node Tree.nil dupNew Tree.nil) := by
    unfold insertTree
    rw [if_pos (by decide),
      addNode_node_not_lt _ _
        (by rw [show dupNew.courseId = dupOld.courseId from rfl]
            exact lt_irrefl _)]
    rfl
  rw [h1, e1, e2]
  intro hp
  have h2 : treeKeys
      (Tree.node Tree.nil dupOld (Tree.node Tree.nil dupNew Tree.nil))
      = ["CS100", "CS100"] := rfl
  rw [h2] at hp
  rcases List.pairwise_cons.1 hp with ⟨hf, _⟩
  exact lt_irrefl _ (hf _ (List.mem_cons_self _ _))

/-- C6 (amended): for every sequence of insertions with pairwise
distinct keys, in whatever order they are performed, enumeration yields
the stored keys in strictly ascending lexicographic order.  (As stated
the claim fails, because a repeated key is inserted twice rather than
rejected.) -/
theorem claim_C6_enumeration_sorted (cs : List Course)
    (hnodup : (cs.map Course.courseId).Nodup) :
    List.Pairwise (· < ·) (treeKeys (insertAll cs).root) := by
  rw [insertAll_root]
  have h := foldl_insertTree_inv cs Tree.nil trivial
    (by simp [treeKeys, inorder]) (by simp [treeKeys, inorder]) hnodup
  exact pairwise_lt_of_le_nodup (sorted_le_treeKeys h.1) h.2

/-- Witness for C6 on a three-course load performed in non-sorted
order. -/
theorem claim_C6_enumeration_sorted_witness :
    (([courseC, courseA, courseB].map Course.courseId).Nodup) ∧
    List.Pairwise (· < ·)
      (treeKeys (insertAll [courseC, courseA, courseB]).root) :=
  ⟨by decide, claim_C6_enumeration_sorted [courseC, courseA, courseB]
    (by decide)⟩

/-! ### Claim C8: prerequisite validation -/

theorem validatePrereqs_none_iff (m : CMap) (c : Course) :
    validatePrerequisites m c = none ↔
      ∀ p ∈ c.prereqs, (findCourse m p).isSome = true := by
  unfold validatePrerequisites
  rw [Option.map_eq_none', List.find?_eq_none]
  constructor
  · intro h p hp
    have := h p hp
    cases hfind : findCourse m p with
    | none => rw [hfind] at this; simp at this
    | some c => simp
  · intro h p hp
    have := h p hp
    cases hfind : findCourse m p with
    | none => rw [hfind] at this; simp at this
    | some c => simp [hfind]

theorem vap_go_spec (m : CMap) (l : CMap) :
    ((ValidateAllPrerequisites.go m l).1 = true ↔
      ∀ e ∈ l, ∀ p ∈ e.2.prereqs, (findCourse m p).isSome = true) ∧
    (ValidateAllPrerequisites.go m l).2.length ≤ 1 := by
  induction l with
  | nil => simp [ValidateAllPrerequisites.go]
  | cons e rest ih =>
      unfold ValidateAllPrerequisites.go
      cases hv : validatePrerequisites m e.2 with
      | some msg =>
          refine ⟨?_, by simp⟩
          simp only [List.mem_cons, forall_eq_or_imp]
          constructor
          · intro hfalse; exact absurd hfalse (by simp)
          · rintro ⟨he, _⟩
            rw [(validatePrereqs_none_iff m e.2).2 he] at hv
            exact absurd hv (by simp)
      | none =>
          refine ⟨?_, ih.2⟩
          rw [ih.1]
          simp only [List.mem_cons, forall_eq_or_imp]
          exact ⟨fun h => ⟨(validatePrereqs_none_iff m e.2).1 hv, h⟩,
            fun h => h.2⟩

/-- Counterexample to C8 as stated: the catalog whose single record
`"CS100"` lists itself as a prerequisite contains a self-reference
violation, yet the validation pass classifies nothing, reports nothing
and returns success — it only ever checks that prerequisites resolve. -/
theorem claim_C8_counterexample :
    selfRefCourse.courseId = "CS100" ∧
    selfRefCourse.prereqs = ["CS100"] ∧
    ValidateAllPrerequisites selfRefCat = (true, []) :=
  ⟨rfl, rfl, rfl⟩

/-- C8 (amended): the validation pass checks only that every listed
prerequisite resolves to an existing record (self-references and
duplicates of resolvable keys are not violations); it returns `true`
exactly when all prerequisites of all records resolve, and on failure
it halts at the first failing record, reporting at most one
violation rather than accumulating them. -/
theorem claim_C8_validation_first_error_only (m : CMap) :
    ((ValidateAllPrerequisites m).1 = true ↔
      ∀ e ∈ m, ∀ p ∈ e.2.prereqs, (findCourse m p).isSome = true) ∧
    (ValidateAllPrerequisites m).2.length ≤ 1 :=
  vap_go_spec m m

/-! ### Claim C7: dependency graph rebuild -/

theorem appendDependent_of_not_found {m : CMap} {p : String} (d : String)
    (h : findCourse m p = none) : appendDependent m p d = m := by
  unfold appendDependent
  have hk : ∀ e ∈ m, e.1 ≠ p := by
    intro e he hep
    unfold findCourse at h
    rw [Option.map_eq_none', List.find?_eq_none] at h
    exact h e he (by simp [hep])
  calc m.map (entryApp p d)
      = m.map id := List.map_congr_left (fun e he => by
          unfold entryApp
          rw [if_neg (hk e he)]
          rfl)
    _ = m := List.map_id m

theorem edges_fold_eq_map (rid : String) :
    ∀ (ps : List String) (m : CMap),
    ps.foldl (fun acc p =>
        match findCourse acc p with
        | some _ => appendDependent acc p rid
        | none => acc) m
      = m.map (fun e => ps.foldl (fun e p => entryApp p rid e) e) := by
  intro ps
  induction ps with
  | nil =>
      intro m
      simp only [List.foldl_nil]
      exact (List.map_id' m).symm
  | cons p rest ih =>
      intro m
      simp only [List.foldl_cons]
      have hstep : (match findCourse m p with
          | some _ => appendDependent m p rid
          | none => m) = appendDependent m p rid := by
        cases h : findCourse m p with
        | some c => rfl
        | none =>
            show m = appendDependent m p rid
            rw [appendDependent_of_not_found rid h]
      rw [hstep, ih]
      unfold appendDependent
      rw [List.map_map]
      rfl

theorem addEdgesFor_eq_map (m : CMap) (r : Course) :
    addEdgesFor m r
      = m.map (fun e => r.prereqs.foldl
          (fun e p => entryApp p r.courseId e) e) :=
  edges_fold_eq_map r.courseId r.prereqs m

theorem build_fold_eq_map :
    ∀ (L : List (String × Course)) (acc : CMap),
    L.foldl (fun a e => addEdgesFor a e.2) acc
      = acc.map (entryBuild (L.map Prod.snd)) := by
  intro L
  induction L with
  | nil =>
      intro acc
      simp only [List.foldl_nil, List.map_nil]
      exact (List.map_id'' (fun e => rfl) acc).symm
  | cons e rest ih =>
      intro acc
      simp only [List.foldl_cons]
      rw [addEdgesFor_eq_map, ih, List.map_map]
      rfl

theorem BuildDependencyGraph_eq_map (m : CMap) :
    BuildDependencyGraph m
      = (clearDependents m).map
          (entryBuild ((clearDependents m).map Prod.snd)) :=
  build_fold_eq_map (clearDependents m) (clearDependents m)

theorem entryApps_fold_spec (rid : String) :
    ∀ (ps : List String) (e : String × Course),
    (ps.foldl (fun e p => entryApp p rid e) e).1 = e.1 ∧
    (ps.foldl (fun e p => entryApp p rid e) e).2.courseId = e.2.courseId ∧
    (ps.foldl (fun e p => entryApp p rid e) e).2.prereqs = e.2.prereqs ∧
    (∀ x, x ∈ (ps.foldl (fun e p => entryApp p rid e) e).2.dependentCourses ↔
      x ∈ e.2.dependentCourses ∨ (x = rid ∧ e.1 ∈ ps)) := by
  intro ps
  induction ps with
  | nil => intro e; simp
  | cons p rest ih =>
      intro e
      simp only [List.foldl_cons]
      obtain ⟨h1, h2, h3, h4⟩ := ih (entryApp p rid e)
      have hfst : (entryApp p rid e).1 = e.1 := by
        unfold entryApp; split <;> rfl
      have hcid : (entryApp p rid e).2.courseId = e.2.courseId := by
        unfold entryApp; split <;> rfl
      have hpre : (entryApp p rid e).2.prereqs = e.2.prereqs := by
        unfold entryApp; split <;> rfl
      refine ⟨h1.trans hfst, h2.trans hcid, h3.trans hpre, ?_⟩
      intro x
      rw [h4 x, hfst]
      by_cases hp : e.1 = p
      · have hdeps : (entryApp p rid e).2.dependentCourses
            = e.2.dependentCourses ++ [rid] := by
          unfold entryApp; rw [if_pos hp]
        rw [hdeps]
        simp only [List.mem_append, List.mem_cons, List.not_mem_nil, or_false]
        constructor
        · rintro ((hx | hx) | ⟨hx, hmem⟩)
          · exact Or.inl hx
          · exact Or.inr ⟨hx, Or.inl hp⟩
          · exact Or.inr ⟨hx, Or.inr hmem⟩
        · rintro (hx | ⟨hx, _⟩)
          · exact Or.inl (Or.inl hx)
          · exact Or.inl (Or.inr hx)
      · have hdeps : (entryApp p rid e).2.dependentCourses
            = e.2.dependentCourses := by
          unfold entryApp; rw [if_neg hp]
        rw [hdeps]
        simp only [List.mem_cons]
        constructor
        · rintro (hx | ⟨hx, hmem⟩)
          · exact Or.inl hx
          · exact Or.inr ⟨hx, Or.inr hmem⟩
        · rintro (hx | ⟨hx, hp2 | hmem⟩)
          · exact Or.inl hx
          · exact absurd hp2 hp
          · exact Or.inr ⟨hx, hmem⟩

theorem entryBuild_spec :
    ∀ (rs : List Course) (e : String × Course),
    (entryBuild rs e).1 = e.1 ∧
    (entryBuild rs e).2.courseId = e.2.courseId ∧
    (entryBuild rs e).2.prereqs = e.2.prereqs ∧
    (∀ x, x ∈ (entryBuild rs e).2.dependentCourses ↔
      x ∈ e.2.dependentCourses ∨
        ∃ r ∈ rs, x = r.courseId ∧ e.1 ∈ r.prereqs) := by
  intro rs
  induction rs with
  | nil => intro e; simp [entryBuild]
  | cons r rest ih =>
      intro e
      have hstep : entryBuild (r :: rest) e
          = entryBuild rest
              (r.prereqs.foldl (fun e p => entryApp p r.courseId e) e) := rfl
      obtain ⟨g1, g2, g3, g4⟩ := entryApps_fold_spec r.courseId r.prereqs e
      obtain ⟨h1, h2, h3, h4⟩ :=
        ih (r.prereqs.foldl (fun e p => entryApp p r.courseId e) e)
      rw [hstep]
      refine ⟨h1.trans g1, h2.trans g2, h3.trans g3, ?_⟩
      intro x
      rw [h4 x, g4 x, g1]
      simp only [List.mem_cons]
      constructor
      · rintro ((hx | ⟨hx, hp⟩) | ⟨r', hr', hx, hp⟩)
        · exact Or.inl hx
        · exact Or.inr ⟨r, Or.inl rfl, hx, hp⟩
        · exact Or.inr ⟨r', Or.inr hr', hx, hp⟩
      · rintro (hx | ⟨r', rfl | hr', hx, hp⟩)
        · exact Or.inl (Or.inl hx)
        · exact Or.inl (Or.inr ⟨hx, hp⟩)
        · exact Or.inr ⟨r', hr', hx, hp⟩

theorem findCourse_map_fst (f : String × Course → String × Course)
    (hf : ∀ e, (f e).1 = e.1) :
    ∀ (m : CMap) (k : String),
    findCourse (m.map f) k
      = (m.find? (fun e => e.1 == k)).map (fun e => (f e).2) := by
  intro m
  induction m with
  | nil => intro k; rfl
  | cons e rest ih =>
      intro k
      unfold findCourse at ih ⊢
      simp only [List.map_cons, List.find?_cons, hf e]
      cases hbeq : (e.1 == k) with
      | true => rfl
      | false => exact ih k

theorem find?_eq_of_mem_nodup :
    ∀ (m : CMap), (m.map Prod.fst).Nodup →
    ∀ e ∈ m, m.find? (fun x => x.1 == e.1) = some e := by
  intro m
  induction m with
  | nil => intro _ e he; cases he
  | cons f rest ih =>
      intro hn e he
      simp only [List.map_cons, List.nodup_cons] at hn
      rcases List.mem_cons.1 he with rfl | he2
      · rw [List.find?_cons_of_pos]
        simp
      · rw [List.find?_cons_of_neg]
        · exact ih hn.2 e he2
        · simp only [beq_iff_eq]
          intro hfe
          exact hn.1 (hfe ▸ List.mem_map_of_mem Prod.fst he2)

theorem clearDependents_entry {m : CMap} {e0 : String × Course}
    (h : e0 ∈ clearDependents m) :
    e0.2.dependentCourses = [] := by
  unfold clearDependents at h
  obtain ⟨e, _, rfl⟩ := List.mem_map.1 h
  rfl

theorem WF_clearDependents {m : CMap} (h : WF m) : WF (clearDependents m) := by
  constructor
  · intro e he
    obtain ⟨e0, he0, rfl⟩ := List.mem_map.1 he
    exact h.1 e0 he0
  · have hkeys : (clearDependents m).map Prod.fst = m.map Prod.fst := by
      unfold clearDependents
      rw [List.map_map]
      rfl
    rw [hkeys]
    exact h.2

/-- C7: after a rebuild, for every record `r` in the catalog and every
key `d` in `r.prerequisites`, either `d` is absent (dangling) or the
record stored under `d` lists `r`'s key among its dependents; and
conversely a key `a` appears in a record's dependents only if the
record stored under `a` declares that record's key as a
prerequisite. -/
theorem claim_C7_rebuild_dependents (m : CMap) (hwf : WF m) :
    (∀ e ∈ BuildDependencyGraph m, ∀ d ∈ e.2.prereqs,
        findCourse (BuildDependencyGraph m) d = none ∨
        ∃ cd, findCourse (BuildDependencyGraph m) d = some cd ∧
          e.2.courseId ∈ cd.dependentCourses) ∧
    (∀ e ∈ BuildDependencyGraph m, ∀ a ∈ e.2.dependentCourses,
        ∃ ra, findCourse (BuildDependencyGraph m) a = some ra ∧
          e.2.courseId ∈ ra.prereqs) := by
  have hwfb := WF_clearDependents hwf
  set base := clearDependents m with hbase
  set rs := base.map Prod.snd with hrs
  have hmap : BuildDependencyGraph m = base.map (entryBuild rs) :=
    BuildDependencyGraph_eq_map m
  have hFfst : ∀ e, (entryBuild rs e).1 = e.1 :=
    fun e => (entryBuild_spec rs e).1
  have hfind : ∀ k, findCourse (BuildDependencyGraph m) k
      = (base.find? (fun e => e.1 == k)).map (fun e => (entryBuild rs e).2) := by
    intro k
    rw [hmap]
    exact findCourse_map_fst (entryBuild rs) hFfst base k
  constructor
  · intro e' he' d hd
    rw [hmap] at he'
    obtain ⟨e0, he0, rfl⟩ := List.mem_map.1 he'
    have hd0 : d ∈ e0.2.prereqs := by
      rwa [(entryBuild_spec rs e0).2.2.1] at hd
    cases hfc : findCourse (BuildDependencyGraph m) d with
    | none => exact Or.inl rfl
    | some cd =>
        refine Or.inr ⟨cd, rfl, ?_⟩
        rw [hfind d] at hfc
        obtain ⟨ed, hfd, hcd⟩ := Option.map_eq_some'.1 hfc
        rw [← hcd]
        rw [(entryBuild_spec rs ed).2.2.2 _]
        refine Or.inr ⟨e0.2, List.mem_map_of_mem Prod.snd he0,
          (entryBuild_spec rs e0).2.1, ?_⟩
        have hed1 : ed.1 = d := by
          have := List.find?_some hfd
          rwa [beq_iff_eq] at this
        rw [hed1]
        exact hd0
  · intro e' he' a ha
    rw [hmap] at he'
    obtain ⟨e0, he0, rfl⟩ := List.mem_map.1 he'
    rw [(entryBuild_spec rs e0).2.2.2 _] at ha
    rcases ha with ha | ⟨r, hrmem, hxa, hp⟩
    · rw [clearDependents_entry he0] at ha
      cases ha
    · obtain ⟨er, hermem, rfl⟩ := List.mem_map.1 hrmem
      have her1 : er.2.courseId = er.1 := hwfb.1 er hermem
      refine ⟨(entryBuild rs er).2, ?_, ?_⟩
      · rw [hfind a]
        have hfinder : base.find? (fun x => x.1 == er.1) = some er :=
          find?_eq_of_mem_nodup base hwfb.2 er hermem
        rw [hxa, her1, hfinder]
        rfl
      · rw [(entryBuild_spec rs er).2.2.1]
        rw [(entryBuild_spec rs e0).2.1]
        rw [hwfb.1 e0 he0]
        exact hp

/-- Witness for C7 on a concrete catalog with one resolved and one
dangling prerequisite. -/
theorem claim_C7_rebuild_dependents_witness :
    WF depCat ∧
    ((∀ e ∈ BuildDependencyGraph depCat, ∀ d ∈ e.2.prereqs,
        findCourse (BuildDependencyGraph depCat) d = none ∨
        ∃ cd, findCourse (BuildDependencyGraph depCat) d = some cd ∧
          e.2.courseId ∈ cd.dependentCourses) ∧
    (∀ e ∈ BuildDependencyGraph depCat, ∀ a ∈ e.2.dependentCourses,
        ∃ ra, findCourse (BuildDependencyGraph depCat) a = some ra ∧
          e.2.courseId ∈ ra.prereqs)) :=
  ⟨by decide, claim_C7_rebuild_dependents depCat (by decide)⟩

/-! ### Cycle detection: helper facts -/

theorem findCourse_courseId {m : CMap} (hwf : WF m) {k : String} {c : Course}
    (h : findCourse m k = some c) : c.courseId = k := by
  unfold findCourse at h
  obtain ⟨e, hfind, rfl⟩ := Option.map_eq_some'.1 h
  have he := List.mem_of_find?_eq_some hfind
  have hk := List.find?_some hfind
  rw [beq_iff_eq] at hk
  rw [hwf.1 e he, hk]

theorem findCourse_mem_keysF {m : CMap} {k : String} {c : Course}
    (h : findCourse m k = some c) : k ∈ keysF m := by
  unfold findCourse at h
  obtain ⟨e, hfind, rfl⟩ := Option.map_eq_some'.1 h
  have he := List.mem_of_find?_eq_some hfind
  have hk := List.find?_some hfind
  rw [beq_iff_eq] at hk
  unfold keysF
  rw [List.mem_toFinset, ← hk]
  exact List.mem_map_of_mem Prod.fst he

theorem noCycleFrom_of_successors (m : CMap) (x : String)
    (h : ∀ z, Edge m x z → NoCycleFrom m z) : NoCycleFrom m x := by
  intro y hxy hyy
  rcases Relation.ReflTransGen.cases_head hxy with rfl | ⟨z, hxz, hzy⟩
  · rcases (Relation.TransGen.head'_iff).1 hyy with ⟨z, hxz, hzx⟩
    exact h z hxz _ hzx hyy
  · exact h z hxz y hzy hyy

theorem not_cycleReachable_iff (m : CMap) (k : String) :
    ¬ CycleReachable m k ↔ NoCycleFrom m k := by
  constructor
  · intro h y hky hyy
    exact h ⟨y, hky, hyy⟩
  · rintro h ⟨y, hky, hyy⟩
    exact h y hky hyy

/-! ### Cycle detection: structural and totality lemmas -/

theorem cycleLoop_basic (m : CMap) (hwf : WF m)
    (sub : Course → Finset String → Finset String →
      Option (Bool × Finset String × Finset String))
    (hsub : ∀ c v r out, sub c v r = some out → r ⊆ v → c.courseId ∉ v →
      v ⊆ out.2.1 ∧ (out.1 = false → out.2.2 = r)) :
    ∀ ps v r out, cycleLoop m sub ps v r = some out → r ⊆ v →
      v ⊆ out.2.1 ∧ (out.1 = false → out.2.2 = r) := by
  intro ps
  induction ps with
  | nil =>
      intro v r out h _
      unfold cycleLoop at h
      cases h
      exact ⟨Finset.Subset.refl v, fun _ => rfl⟩
  | cons p rest ih =>
      intro v r out h hrv
      unfold cycleLoop at h
      cases hfc : findCourse m p with
      | none =>
          simp only [hfc] at h
          exact ih v r out h hrv
      | some prereq =>
          simp only [hfc] at h
          by_cases hpr : p ∈ r
          · rw [if_pos hpr] at h
            cases h
            exact ⟨Finset.Subset.refl v, by simp⟩
          · rw [if_neg hpr] at h
            by_cases hpv : p ∈ v
            · rw [if_pos hpv] at h
              exact ih v r out h hrv
            · rw [if_neg hpv] at h
              have hpid : prereq.courseId = p := findCourse_courseId hwf hfc
              cases hs : sub prereq v r with
              | none =>
                  simp only [hs] at h
                  exact Option.noConfusion h
              | some sout =>
                  obtain ⟨b, v', r'⟩ := sout
                  have hsb := hsub prereq v r (b, v', r') hs hrv
                    (by rwa [hpid])
                  have hvv' : v ⊆ v' := hsb.1
                  cases b with
                  | true =>
                      simp only [hs] at h
                      cases h
                      exact ⟨hvv', by simp⟩
                  | false =>
                      simp only [hs] at h
                      have hr' : r' = r := hsb.2 rfl
                      rw [hr'] at h
                      have hres := ih v' r out h
                        (Finset.Subset.trans hrv hvv')
                      exact ⟨Finset.Subset.trans hvv' hres.1, hres.2⟩

theorem hasCycleAux_basic (m : CMap) (hwf : WF m) :
    ∀ fuel c v r out, hasCycleAux m fuel c v r = some out → r ⊆ v →
      c.courseId ∉ v →
      v ⊆ out.2.1 ∧ (out.1 = false → out.2.2 = r) := by
  intro fuel
  induction fuel with
  | zero => intro c v r out h; cases h
  | succ f ih =>
      intro c v r out h hrv hcv
      have hstep : hasCycleAux m (f + 1) c v r
          = match cycleLoop m (hasCycleAux m f) c.prereqs
              (insert c.courseId v) (insert c.courseId r) with
            | none => none
            | some (true, v', r') => some (true, v', r')
            | some (false, v', r') =>
                some (false, v', r'.erase c.courseId) := rfl
      rw [hstep] at h
      cases hloop : cycleLoop m (hasCycleAux m f) c.prereqs
          (insert c.courseId v) (insert c.courseId r) with
      | none => rw [hloop] at h; cases h
      | some lout =>
          rw [hloop] at h
          have hbasic := cycleLoop_basic m hwf (hasCycleAux m f)
            (fun c' v' r' out' h' hrv' hcv' => ih c' v' r' out' h' hrv' hcv')
            c.prereqs (insert c.courseId v) (insert c.courseId r) lout hloop
            (Finset.insert_subset_insert _ hrv)
          obtain ⟨b, v', r'⟩ := lout
          have hvv' : insert c.courseId v ⊆ v' := hbasic.1
          cases b with
          | true =>
              cases h
              exact ⟨Finset.Subset.trans (Finset.subset_insert _ _) hvv',
                by simp⟩
          | false =>
              cases h
              refine ⟨Finset.Subset.trans (Finset.subset_insert _ _)
                hvv', fun _ => ?_⟩
              show r'.erase c.courseId = r
              have hr' : r' = insert c.courseId r := hbasic.2 rfl
              rw [hr']
              exact Finset.erase_insert
                (fun hcr => hcv (hrv hcr))

theorem cycleLoop_total (m : CMap) (hwf : WF m)
    (sub : Course → Finset String → Finset String →
      Option (Bool × Finset String × Finset String))
    (n : Nat)
    (hsubBasic : ∀ c v r out, sub c v r = some out → r ⊆ v →
      c.courseId ∉ v → v ⊆ out.2.1 ∧ (out.1 = false → out.2.2 = r))
    (hsubTotal : ∀ c v r, r ⊆ v → c.courseId ∈ keysF m → c.courseId ∉ v →
      (keysF m \ v).card < n → (sub c v r).isSome = true) :
    ∀ ps v r, r ⊆ v → (keysF m \ v).card < n →
      (cycleLoop m sub ps v r).isSome = true := by
  intro ps
  induction ps with
  | nil => intro v r _ _; rfl
  | cons p rest ih =>
      intro v r hrv hcard
      unfold cycleLoop
      cases hfc : findCourse m p with
      | none =>
          simp only [hfc]
          exact ih v r hrv hcard
      | some prereq =>
          simp only [hfc]
          by_cases hpr : p ∈ r
          · rw [if_pos hpr]; rfl
          · rw [if_neg hpr]
            by_cases hpv : p ∈ v
            · rw [if_pos hpv]
              exact ih v r hrv hcard
            · rw [if_neg hpv]
              have hpid : prereq.courseId = p := findCourse_courseId hwf hfc
              have hkey : prereq.courseId ∈ keysF m := by
                rw [hpid]; exact findCourse_mem_keysF hfc
              have hsome := hsubTotal prereq v r hrv hkey (by rwa [hpid])
                hcard
              cases hs : sub prereq v r with
              | none => rw [hs] at hsome; cases hsome
              | some sout =>
                  obtain ⟨b, v', r'⟩ := sout
                  cases b with
                  | true => rfl
                  | false =>
                      have hsb := hsubBasic prereq v r (false, v', r') hs hrv
                        (by rwa [hpid])
                      have hvv' : v ⊆ v' := hsb.1
                      have hr' : r' = r := hsb.2 rfl
                      show (cycleLoop m sub rest v' r').isSome = true
                      rw [hr']
                      refine ih v' r (Finset.Subset.trans hrv hvv') ?_
                      calc (keysF m \ v').card
                          ≤ (keysF m \ v).card :=
                            Finset.card_le_card
                              (Finset.sdiff_subset_sdiff
                                (Finset.Subset.refl _) hvv')
                        _ < n := hcard

theorem hasCycleAux_total (m : CMap) (hwf : WF m) :
    ∀ fuel c v r, r ⊆ v → c.courseId ∈ keysF m → c.courseId ∉ v →
      (keysF m \ v).card < fuel →
      (hasCycleAux m fuel c v r).isSome = true := by
  intro fuel
  induction fuel with
  | zero => intro c v r _ _ _ h; cases h
  | succ f ih =>
      intro c v r hrv hkey hcv hcard
      have hcard' : (keysF m \ insert c.courseId v).card < f := by
        have hmem : c.courseId ∈ keysF m \ v :=
          Finset.mem_sdiff.2 ⟨hkey, hcv⟩
        have hset : keysF m \ insert c.courseId v
            = (keysF m \ v).erase c.courseId := by
          ext x
          simp only [Finset.mem_sdiff, Finset.mem_insert, Finset.mem_erase,
            not_or]
          tauto
        rw [hset, Finset.card_erase_of_mem hmem]
        have hpos : 1 ≤ (keysF m \ v).card :=
          Finset.card_pos.2 ⟨_, hmem⟩
        omega
      have hloopSome := cycleLoop_total m hwf (hasCycleAux m f) f
        (fun c' v' r' out' h' hrv' hcv' =>
          hasCycleAux_basic m hwf f c' v' r' out' h' hrv' hcv')
        (fun c' v' r' hrv' hk' hc' hcd' => ih c' v' r' hrv' hk' hc' hcd')
        c.prereqs (insert c.courseId v) (insert c.courseId r)
        (Finset.insert_subset_insert _ hrv)
        hcard'
      have hstep : hasCycleAux m (f + 1) c v r
          = match cycleLoop m (hasCycleAux m f) c.prereqs
              (insert c.courseId v) (insert c.courseId r) with
            | none => none
            | some (true, v', r') => some (true, v', r')
            | some (false, v', r') =>
                some (false, v', r'.erase c.courseId) := rfl
      rw [hstep]
      cases hloop : cycleLoop m (hasCycleAux m f) c.prereqs
          (insert c.courseId v) (insert c.courseId r) with
      | none => rw [hloop] at hloopSome; cases hloopSome
      | some lout =>
          obtain ⟨b, v', r'⟩ := lout
          cases b <;> rfl



/-! ### Cycle detection: soundness -/

theorem cycleLoop_sound (m : CMap) (hwf : WF m)
    (sub : Course → Finset String → Finset String →
      Option (Bool × Finset String × Finset String))
    (hsubBasic : ∀ c v r out, sub c v r = some out → r ⊆ v →
      c.courseId ∉ v → v ⊆ out.2.1 ∧ (out.1 = false → out.2.2 = r))
    (hsubSound : ∀ c v r out, sub c v r = some out → out.1 = true →
      findCourse m c.courseId = some c →
      (∀ g ∈ r, Reaches m g c.courseId) → r ⊆ v → c.courseId ∉ v →
      CycleReachable m c.courseId) :
    ∀ ps v r out c₀, cycleLoop m sub ps v r = some out → out.1 = true →
      findCourse m c₀.courseId = some c₀ → (∀ p ∈ ps, p ∈ c₀.prereqs) →
      (∀ g ∈ r, Reaches m g c₀.courseId) → r ⊆ v →
      CycleReachable m c₀.courseId := by
  intro ps
  induction ps with
  | nil =>
      intro v r out c₀ h htrue _ _ _ _
      unfold cycleLoop at h
      cases h
      cases htrue
  | cons p rest ih =>
      intro v r out c₀ h htrue hfc₀ hps hgr hrv
      unfold cycleLoop at h
      cases hfc : findCourse m p with
      | none =>
          simp only [hfc] at h
          exact ih v r out c₀ h htrue hfc₀
            (fun q hq => hps q (List.mem_cons_of_mem _ hq)) hgr hrv
      | some prereq =>
          simp only [hfc] at h
          have hedge : Edge m c₀.courseId p :=
            ⟨c₀, hfc₀, hps p (List.mem_cons_self _ _), by rw [hfc]; rfl⟩
          by_cases hpr : p ∈ r
          · have hreach : Reaches m p c₀.courseId := hgr p hpr
            exact ⟨p, Relation.ReflTransGen.single hedge,
              Relation.TransGen.tail' hreach hedge⟩
          · rw [if_neg hpr] at h
            by_cases hpv : p ∈ v
            · rw [if_pos hpv] at h
              exact ih v r out c₀ h htrue hfc₀
                (fun q hq => hps q (List.mem_cons_of_mem _ hq)) hgr hrv
            · rw [if_neg hpv] at h
              have hpid : prereq.courseId = p := findCourse_courseId hwf hfc
              cases hs : sub prereq v r with
              | none =>
                  simp only [hs] at h
                  exact Option.noConfusion h
              | some sout =>
                  obtain ⟨b, v', r'⟩ := sout
                  cases b with
                  | true =>
                      have hcr : CycleReachable m prereq.courseId :=
                        hsubSound prereq v r (true, v', r') hs rfl
                          (by rw [hpid]; exact hfc)
                          (fun g hg => by
                            rw [hpid]
                            exact Relation.ReflTransGen.tail (hgr g hg) hedge)
                          hrv (by rwa [hpid])
                      rw [hpid] at hcr
                      obtain ⟨y, hpy, hyy⟩ := hcr
                      exact ⟨y, Relation.ReflTransGen.trans
                        (Relation.ReflTransGen.single hedge) hpy, hyy⟩
                  | false =>
                      simp only [hs] at h
                      have hsb := hsubBasic prereq v r (false, v', r') hs hrv
                        (by rwa [hpid])
                      have hvv' : v ⊆ v' := hsb.1
                      have hr' : r' = r := hsb.2 rfl
                      rw [hr'] at h
                      exact ih v' r out c₀ h htrue hfc₀
                        (fun q hq => hps q (List.mem_cons_of_mem _ hq)) hgr
                        (Finset.Subset.trans hrv hvv')

theorem hasCycleAux_sound (m : CMap) (hwf : WF m) :
    ∀ fuel c v r out, hasCycleAux m fuel c v r = some out → out.1 = true →
      findCourse m c.courseId = some c →
      (∀ g ∈ r, Reaches m g c.courseId) → r ⊆ v → c.courseId ∉ v →
      CycleReachable m c.courseId := by
  intro fuel
  induction fuel with
  | zero => intro c v r out h; cases h
  | succ f ih =>
      intro c v r out h htrue hfc hgr hrv hcv
      have hstep : hasCycleAux m (f + 1) c v r
          = match cycleLoop m (hasCycleAux m f) c.prereqs
              (insert c.courseId v) (insert c.courseId r) with
            | none => none
            | some (true, v', r') => some (true, v', r')
            | some (false, v', r') =>
                some (false, v', r'.erase c.courseId) := rfl
      rw [hstep] at h
      cases hloop : cycleLoop m (hasCycleAux m f) c.prereqs
          (insert c.courseId v) (insert c.courseId r) with
      | none => rw [hloop] at h; cases h
      | some lout =>
          rw [hloop] at h
          obtain ⟨b, v', r'⟩ := lout
          cases b with
          | false => cases h; cases htrue
          | true =>
              refine cycleLoop_sound m hwf (hasCycleAux m f)
                (fun c' v' r' out' h' hrv' hcv' =>
                  hasCycleAux_basic m hwf f c' v' r' out' h' hrv' hcv')
                (fun c' v' r' out' h' ht' hf' hg' hrv' hcv' =>
                  ih c' v' r' out' h' ht' hf' hg' hrv' hcv')
                c.prereqs (insert c.courseId v) (insert c.courseId r)
                (true, v', r') c hloop rfl hfc (fun q hq => hq) ?_
                (Finset.insert_subset_insert _ hrv)
              intro g hg
              rcases Finset.mem_insert.1 hg with rfl | hg2
              · exact Relation.ReflTransGen.refl
              · exact hgr g hg2

/-! ### Cycle detection: completeness -/

theorem cycleLoop_complete (m : CMap) (hwf : WF m)
    (sub : Course → Finset String → Finset String →
      Option (Bool × Finset String × Finset String))
    (hsubBasic : ∀ c v r out, sub c v r = some out → r ⊆ v →
      c.courseId ∉ v → v ⊆ out.2.1 ∧ (out.1 = false → out.2.2 = r))
    (hsubComplete : ∀ c v r out, sub c v r = some out → out.1 = false →
      findCourse m c.courseId = some c → GrayInv m v r → r ⊆ v →
      c.courseId ∉ v →
      GrayInv m out.2.1 out.2.2 ∧ NoCycleFrom m c.courseId) :
    ∀ ps v r out, cycleLoop m sub ps v r = some out → out.1 = false →
      GrayInv m v r → r ⊆ v →
      GrayInv m out.2.1 out.2.2 ∧
      (∀ p ∈ ps, (findCourse m p).isSome = true → NoCycleFrom m p) := by
  intro ps
  induction ps with
  | nil =>
      intro v r out h _ hgi _
      unfold cycleLoop at h
      cases h
      exact ⟨hgi, by simp⟩
  | cons p rest ih =>
      intro v r out h hfalse hgi hrv
      unfold cycleLoop at h
      cases hfc : findCourse m p with
      | none =>
          simp only [hfc] at h
          have hres := ih v r out h hfalse hgi hrv
          refine ⟨hres.1, ?_⟩
          intro q hq hqs
          rcases List.mem_cons.1 hq with rfl | hq2
          · rw [hfc] at hqs; cases hqs
          · exact hres.2 q hq2 hqs
      | some prereq =>
          simp only [hfc] at h
          by_cases hpr : p ∈ r
          · rw [if_pos hpr] at h
            cases h
            cases hfalse
          · rw [if_neg hpr] at h
            by_cases hpv : p ∈ v
            · rw [if_pos hpv] at h
              have hnc : NoCycleFrom m p := hgi p hpv hpr
              have hres := ih v r out h hfalse hgi hrv
              refine ⟨hres.1, ?_⟩
              intro q hq hqs
              rcases List.mem_cons.1 hq with rfl | hq2
              · exact hnc
              · exact hres.2 q hq2 hqs
            · rw [if_neg hpv] at h
              have hpid : prereq.courseId = p := findCourse_courseId hwf hfc
              cases hs : sub prereq v r with
              | none =>
                  simp only [hs] at h
                  exact Option.noConfusion h
              | some sout =>
                  obtain ⟨b, v', r'⟩ := sout
                  cases b with
                  | true =>
                      simp only [hs] at h
                      cases h
                      cases hfalse
                  | false =>
                      simp only [hs] at h
                      have hsb := hsubBasic prereq v r (false, v', r') hs hrv
                        (by rwa [hpid])
                      have hvv' : v ⊆ v' := hsb.1
                      have hr' : r' = r := hsb.2 rfl
                      have hsc := hsubComplete prereq v r (false, v', r') hs
                        rfl (by rw [hpid]; exact hfc) hgi hrv
                        (by rwa [hpid])
                      have hgi' : GrayInv m v' r := by
                        have hgx := hsc.1
                        rwa [show (false, v', r').2.2 = r' from rfl, hr']
                          at hgx
                      rw [hr'] at h
                      have hres := ih v' r out h hfalse hgi'
                        (Finset.Subset.trans hrv hvv')
                      refine ⟨hres.1, ?_⟩
                      intro q hq hqs
                      rcases List.mem_cons.1 hq with rfl | hq2
                      · rw [← hpid]
                        exact hsc.2
                      · exact hres.2 q hq2 hqs

theorem hasCycleAux_complete (m : CMap) (hwf : WF m) :
    ∀ fuel c v r out, hasCycleAux m fuel c v r = some out → out.1 = false →
      findCourse m c.courseId = some c → GrayInv m v r → r ⊆ v →
      c.courseId ∉ v →
      GrayInv m out.2.1 out.2.2 ∧ NoCycleFrom m c.courseId := by
  intro fuel
  induction fuel with
  | zero => intro c v r out h; cases h
  | succ f ih =>
      intro c v r out h hfalse hfc hgi hrv hcv
      have hstep : hasCycleAux m (f + 1) c v r
          = match cycleLoop m (hasCycleAux m f) c.prereqs
              (insert c.courseId v) (insert c.courseId r) with
            | none => none
            | some (true, v', r') => some (true, v', r')
            | some (false, v', r') =>
                some (false, v', r'.erase c.courseId) := rfl
      rw [hstep] at h
      cases hloop : cycleLoop m (hasCycleAux m f) c.prereqs
          (insert c.courseId v) (insert c.courseId r) with
      | none => rw [hloop] at h; cases h
      | some lout =>
          rw [hloop] at h
          obtain ⟨b, v', r'⟩ := lout
          cases b with
          | true => cases h; cases hfalse
          | false =>
              cases h
              have hgi1 : GrayInv m (insert c.courseId v)
                  (insert c.courseId r) := by
                intro x hx hxr
                have hxc : x ≠ c.courseId := by
                  intro hxc
                  exact hxr (hxc ▸ Finset.mem_insert_self _ _)
                have hxv : x ∈ v :=
                  (Finset.mem_insert.1 hx).resolve_left hxc
                have hxr2 : x ∉ r := fun hxr2 =>
                  hxr (Finset.mem_insert_of_mem hxr2)
                exact hgi x hxv hxr2
              have hloopC := cycleLoop_complete m hwf (hasCycleAux m f)
                (fun c' v' r' out' h' hrv' hcv' =>
                  hasCycleAux_basic m hwf f c' v' r' out' h' hrv' hcv')
                (fun c' v' r' out' h' hf' hfc' hg' hrv' hcv' =>
                  ih c' v' r' out' h' hf' hfc' hg' hrv' hcv')
                c.prereqs (insert c.courseId v) (insert c.courseId r)
                (false, v', r') hloop rfl hgi1
                (Finset.insert_subset_insert _ hrv)
              have hloopB := cycleLoop_basic m hwf (hasCycleAux m f)
                (fun c' v' r' out' h' hrv' hcv' =>
                  hasCycleAux_basic m hwf f c' v' r' out' h' hrv' hcv')
                c.prereqs (insert c.courseId v) (insert c.courseId r)
                (false, v', r') hloop
                (Finset.insert_subset_insert _ hrv)
              have hr' : r' = insert c.courseId r := hloopB.2 rfl
              have hnc : NoCycleFrom m c.courseId := by
                refine noCycleFrom_of_successors m c.courseId ?_
                rintro z ⟨ca, hca, hzmem, hzres⟩
                have hcac : ca = c := by
                  rw [hfc] at hca
                  exact (Option.some.inj hca).symm
                subst hcac
                exact hloopC.2 z hzmem hzres
              refine ⟨?_, hnc⟩
              show GrayInv m v' (r'.erase c.courseId)
              have hcr : c.courseId ∉ r := fun hcr => hcv (hrv hcr)
              rw [hr', Finset.erase_insert hcr]
              intro x hx hxr
              by_cases hxc : x = c.courseId
              · rw [hxc]
                exact hnc
              · have hxir : x ∉ insert c.courseId r := by
                  rw [Finset.mem_insert]
                  rintro (h1 | h1)
                  · exact hxc h1
                  · exact hxr h1
                have hgi' := hloopC.1
                rw [show (false, v', r').2.2 = r' from rfl, hr'] at hgi'
                exact hgi' x hx hxir

/-! ### Claim C1: cycle detection -/

theorem keysF_card_le (m : CMap) : (keysF m).card ≤ m.length := by
  unfold keysF
  calc (m.map Prod.fst).toFinset.card ≤ (m.map Prod.fst).length :=
        (m.map Prod.fst).toFinset_card_le
    _ = m.length := List.length_map _ _

theorem hasPrerequisiteCycle_spec (m : CMap) (k : String) (c : Course)
    (hwf : WF m) (hfind : findCourse m k = some c) :
    ∃ b, HasPrerequisiteCycle m k = Except.ok b ∧
      (b = true ↔ CycleReachable m k) := by
  have hk : c.courseId = k := findCourse_courseId hwf hfind
  have hfc : findCourse m c.courseId = some c := by rw [hk]; exact hfind
  have hkey : c.courseId ∈ keysF m := by
    rw [hk]
    exact findCourse_mem_keysF hfind
  have hcard : (keysF m \ ∅).card < m.length + 1 := by
    rw [Finset.sdiff_empty]
    have := keysF_card_le m
    omega
  have htot := hasCycleAux_total m hwf (m.length + 1) c ∅ ∅
    (Finset.Subset.refl _) hkey (Finset.not_mem_empty _) hcard
  cases hout : hasCycleAux m (m.length + 1) c ∅ ∅ with
  | none => rw [hout] at htot; cases htot
  | some out =>
      obtain ⟨b, v', r'⟩ := out
      have hHPC : HasPrerequisiteCycle m k = Except.ok b := by
        unfold HasPrerequisiteCycle
        simp only [hfind, hout]
      refine ⟨b, hHPC, ?_⟩
      constructor
      · intro hb
        subst hb
        have hsnd := hasCycleAux_sound m hwf (m.length + 1) c ∅ ∅
          (true, v', r') hout rfl hfc (by simp) (Finset.Subset.refl _)
          (Finset.not_mem_empty _)
        rwa [hk] at hsnd
      · intro hcyc
        cases b with
        | true => rfl
        | false =>
            have hcomp := hasCycleAux_complete m hwf (m.length + 1) c ∅ ∅
              (false, v', r') hout rfl hfc
              (fun x hx _ => absurd hx (Finset.not_mem_empty _))
              (Finset.Subset.refl _) (Finset.not_mem_empty _)
            have hnc : NoCycleFrom m k := hk ▸ hcomp.2
            exact absurd hcyc ((not_cycleReachable_iff m k).2 hnc)

/-- C1: for a key present in the catalog, `HasPrerequisiteCycle`
returns `true` exactly when a directed cycle of resolved prerequisite
edges is reachable from that key; for an absent key it fails with
`NotFound`. -/
theorem claim_C1_hasCycle_iff (m : CMap) (k : String) (hwf : WF m) :
    (findCourse m k = none →
      HasPrerequisiteCycle m k = Except.error Err.NotFound) ∧
    (∀ c, findCourse m k = some c →
      (HasPrerequisiteCycle m k = Except.ok true ↔ CycleReachable m k)) := by
  constructor
  · intro h
    unfold HasPrerequisiteCycle
    rw [h]
  · intro c hfind
    obtain ⟨b, hb, hiff⟩ := hasPrerequisiteCycle_spec m k c hwf hfind
    rw [hb]
    constructor
    · intro hEq
      exact hiff.1 (Except.ok.inj hEq)
    · intro hcyc
      rw [hiff.2 hcyc]

/-- C3: `GetPrerequisiteOrder` fails with `NotFound` on an absent key;
when the key is present and the cycle check — which runs before any
linearization — reports `true`, it fails with `CycleDetected`; and
whenever a cycle is reachable from a present start key it fails with
`CycleDetected` instead of returning any (partial or infinite)
sequence. -/
theorem claim_C3_topo_error_policy (m : CMap) (k : String) (hwf : WF m) :
    (findCourse m k = none →
      GetPrerequisiteOrder m k = Except.error Err.NotFound) ∧
    (∀ c, findCourse m k = some c →
      HasPrerequisiteCycle m k = Except.ok true →
      GetPrerequisiteOrder m k = Except.error Err.CycleDetected) ∧
    (∀ c, findCourse m k = some c → CycleReachable m k →
      GetPrerequisiteOrder m k = Except.error Err.CycleDetected) := by
  refine ⟨?_, ?_, ?_⟩
  · intro h
    unfold GetPrerequisiteOrder
    rw [h]
  · intro c hfind hHPC
    unfold GetPrerequisiteOrder
    simp only [hfind, hHPC]
  · intro c hfind hcyc
    obtain ⟨b, hb, hiff⟩ := hasPrerequisiteCycle_spec m k c hwf hfind
    have hbt : b = true := hiff.2 hcyc
    subst hbt
    unfold GetPrerequisiteOrder
    simp only [hfind, hb]

/-- Witness for C3 on the two-cycle catalog: `AAA100` participates in a
cycle and linearization is refused. -/
theorem claim_C3_topo_error_policy_witness :
    WF cycleCat ∧ findCourse cycleCat "AAA100" = some cycloA ∧
    HasPrerequisiteCycle cycleCat "AAA100" = Except.ok true ∧
    GetPrerequisiteOrder cycleCat "AAA100"
      = Except.error Err.CycleDetected :=
  ⟨by decide, by decide, rfl,
    (claim_C3_topo_error_policy cycleCat "AAA100" (by decide)).2.1 cycloA
      (by decide) rfl⟩

/-- Witness for C1 on the two-cycle catalog (`A` requires `B`, `B`
requires `A`). -/
theorem claim_C1_hasCycle_iff_witness :
    WF cycleCat ∧ findCourse cycleCat "AAA100" = some cycloA ∧
    (HasPrerequisiteCycle cycleCat "AAA100" = Except.ok true ↔
      CycleReachable cycleCat "AAA100") :=
  ⟨by decide, by decide,
    (claim_C1_hasCycle_iff cycleCat "AAA100" (by decide)).2 cycloA
      (by decide)⟩

/-! ### Topological sort: monotonicity and totality -/

theorem topoLoop_mono (m : CMap)
    (sub : Course → Finset String → List Course →
      Option (Finset String × List Course))
    (hsub : ∀ c v s out, sub c v s = some out → v ⊆ out.1) :
    ∀ ps v s out, topoLoop m sub ps v s = some out → v ⊆ out.1 := by
  intro ps
  induction ps with
  | nil =>
      intro v s out h
      unfold topoLoop at h
      cases h
      exact Finset.Subset.refl v
  | cons p rest ih =>
      intro v s out h
      unfold topoLoop at h
      cases hfc : findCourse m p with
      | none =>
          simp only [hfc] at h
          exact ih v s out h
      | some prereq =>
          simp only [hfc] at h
          by_cases hpv : p ∈ v
          · rw [if_pos hpv] at h
            exact ih v s out h
          · rw [if_neg hpv] at h
            cases hs : sub prereq v s with
            | none =>
                simp only [hs] at h
                exact Option.noConfusion h
            | some sout =>
                simp only [hs] at h
                exact Finset.Subset.trans (hsub prereq v s sout hs)
                  (ih sout.1 sout.2 out h)

theorem topoAux_mono (m : CMap) :
    ∀ fuel c v s out, topoAux m fuel c v s = some out → v ⊆ out.1 := by
  intro fuel
  induction fuel with
  | zero => intro c v s out h; cases h
  | succ f ih =>
      intro c v s out h
      have hstep : topoAux m (f + 1) c v s
          = match topoLoop m (topoAux m f) c.prereqs
              (insert c.courseId v) s with
            | none => none
            | some (v', st) => some (v', c :: st) := rfl
      rw [hstep] at h
      cases hloop : topoLoop m (topoAux m f) c.prereqs
          (insert c.courseId v) s with
      | none => rw [hloop] at h; cases h
      | some lout =>
          rw [hloop] at h
          obtain ⟨v', st⟩ := lout
          cases h
          exact Finset.Subset.trans (Finset.subset_insert _ _)
            (topoLoop_mono m (topoAux m f)
              (fun c' v' s' out' h' => ih c' v' s' out' h')
              c.prereqs (insert c.courseId v) s (v', st) hloop)

theorem topoLoop_total (m : CMap) (hwf : WF m)
    (sub : Course → Finset String → List Course →
      Option (Finset String × List Course))
    (n : Nat)
    (hsubMono : ∀ c v s out, sub c v s = some out → v ⊆ out.1)
    (hsubTotal : ∀ c v s, c.courseId ∈ keysF m → c.courseId ∉ v →
      (keysF m \ v).card < n → (sub c v s).isSome = true) :
    ∀ ps v s, (keysF m \ v).card < n →
      (topoLoop m sub ps v s).isSome = true := by
  intro ps
  induction ps with
  | nil => intro v s _; rfl
  | cons p rest ih =>
      intro v s hcard
      unfold topoLoop
      cases hfc : findCourse m p with
      | none =>
          simp only [hfc]
          exact ih v s hcard
      | some prereq =>
          simp only [hfc]
          by_cases hpv : p ∈ v
          · rw [if_pos hpv]
            exact ih v s hcard
          · rw [if_neg hpv]
            have hpid : prereq.courseId = p := findCourse_courseId hwf hfc
            have hkey : prereq.courseId ∈ keysF m := by
              rw [hpid]; exact findCourse_mem_keysF hfc
            have hsome := hsubTotal prereq v s hkey (by rwa [hpid]) hcard
            cases hs : sub prereq v s with
            | none => rw [hs] at hsome; cases hsome
            | some sout =>
                refine ih sout.1 sout.2 ?_
                calc (keysF m \ sout.1).card
                    ≤ (keysF m \ v).card :=
                      Finset.card_le_card
                        (Finset.sdiff_subset_sdiff (Finset.Subset.refl _)
                          (hsubMono prereq v s sout hs))
                  _ < n := hcard

theorem topoAux_total (m : CMap) (hwf : WF m) :
    ∀ fuel c v s, c.courseId ∈ keysF m → c.courseId ∉ v →
      (keysF m \ v).card < fuel →
      (topoAux m fuel c v s).isSome = true := by
  intro fuel
  induction fuel with
  | zero => intro c v s _ _ h; cases h
  | succ f ih =>
      intro c v s hkey hcv hcard
      have hcard' : (keysF m \ insert c.courseId v).card < f := by
        have hmem : c.courseId ∈ keysF m \ v :=
          Finset.mem_sdiff.2 ⟨hkey, hcv⟩
        have hset : keysF m \ insert c.courseId v
            = (keysF m \ v).erase c.courseId := by
          ext x
          simp only [Finset.mem_sdiff, Finset.mem_insert, Finset.mem_erase,
            not_or]
          tauto
        rw [hset, Finset.card_erase_of_mem hmem]
        have hpos : 1 ≤ (keysF m \ v).card :=
          Finset.card_pos.2 ⟨_, hmem⟩
        omega
      have hloopSome := topoLoop_total m hwf (topoAux m f) f
        (fun c' v' s' out' h' => topoAux_mono m f c' v' s' out' h')
        (fun c' v' s' hk' hc' hcd' => ih c' v' s' hk' hc' hcd')
        c.prereqs (insert c.courseId v) s hcard'
      have hstep : topoAux m (f + 1) c v s
          = match topoLoop m (topoAux m f) c.prereqs
              (insert c.courseId v) s with
            | none => none
            | some (v', st) => some (v', c :: st) := rfl
      rw [hstep]
      cases hloop : topoLoop m (topoAux m f) c.prereqs
          (insert c.courseId v) s with
      | none => rw [hloop] at hloopSome; cases hloopSome
      | some lout =>
          obtain ⟨v', st⟩ := lout
          rfl

/-! ### Topological sort: main invariant -/

theorem transGen_of_reflTransGen_ne {α : Type} {r : α → α → Prop}
    {a b : α} (h : Relation.ReflTransGen r a b) (hne : a ≠ b) :
    Relation.TransGen r a b := by
  rcases Relation.ReflTransGen.cases_head h with rfl | ⟨z, haz, hzb⟩
  · exact absurd rfl hne
  · exact Relation.TransGen.head' haz hzb

theorem topoLoop_inv (m : CMap) (hwf : WF m)
    (sub : Course → Finset String → List Course →
      Option (Finset String × List Course))
    (hsub : ∀ c v s G out, sub c v s = some out →
      findCourse m c.courseId = some c → c.courseId ∉ v → G ⊆ v →
      (∀ x, Reaches m c.courseId x →
        ¬ Relation.TransGen (Edge m) x x) →
      (∀ g ∈ G, Reaches m g c.courseId) →
      StackOK m G v s →
      StackOK m G out.1 out.2 ∧ v ⊆ out.1 ∧
      (∀ y ∈ out.1, y ∈ v ∨ Reaches m c.courseId y) ∧
      (∀ y, Reaches m c.courseId y → y ∈ out.1)) :
    ∀ ps v s G out, topoLoop m sub ps v s = some out → G ⊆ v →
      (∀ p ∈ ps, (findCourse m p).isSome = true →
        ∀ x, Reaches m p x → ¬ Relation.TransGen (Edge m) x x) →
      (∀ g ∈ G, ∀ p ∈ ps, (findCourse m p).isSome = true →
        Reaches m g p) →
      (∀ p ∈ ps, (findCourse m p).isSome = true → p ∉ G) →
      StackOK m G v s →
      StackOK m G out.1 out.2 ∧ v ⊆ out.1 ∧
      (∀ y ∈ out.1, y ∈ v ∨
        ∃ p ∈ ps, (findCourse m p).isSome = true ∧ Reaches m p y) ∧
      (∀ p ∈ ps, (findCourse m p).isSome = true →
        ∀ y, Reaches m p y → y ∈ out.1) := by
  intro ps
  induction ps with
  | nil =>
      intro v s G out h _ _ _ _ hok
      unfold topoLoop at h
      cases h
      exact ⟨hok, Finset.Subset.refl v, fun y hy => Or.inl hy, by simp⟩
  | cons p rest ih =>
      intro v s G out h hGv hacy hG3 hGray hok
      unfold topoLoop at h
      cases hfc : findCourse m p with
      | none =>
          simp only [hfc] at h
          have hres := ih v s G out h hGv
            (fun q hq => hacy q (List.mem_cons_of_mem _ hq))
            (fun g hg q hq => hG3 g hg q (List.mem_cons_of_mem _ hq))
            (fun q hq => hGray q (List.mem_cons_of_mem _ hq)) hok
          refine ⟨hres.1, hres.2.1, ?_, ?_⟩
          · intro y hy
            rcases hres.2.2.1 y hy with hy2 | ⟨q, hq, hqs, hqr⟩
            · exact Or.inl hy2
            · exact Or.inr ⟨q, List.mem_cons_of_mem _ hq, hqs, hqr⟩
          · intro q hq hqs
            rcases List.mem_cons.1 hq with rfl | hq2
            · rw [hfc] at hqs; cases hqs
            · exact hres.2.2.2 q hq2 hqs
      | some prereq =>
          simp only [hfc] at h
          have hpid : prereq.courseId = p := findCourse_courseId hwf hfc
          have hpsome : (findCourse m p).isSome = true := by rw [hfc]; rfl
          by_cases hpv : p ∈ v
          · rw [if_pos hpv] at h
            obtain ⟨hVS, hSN, hSG, hBI, hSP, hSF⟩ := hok
            have hres := ih v s G out h hGv
              (fun q hq => hacy q (List.mem_cons_of_mem _ hq))
              (fun g hg q hq => hG3 g hg q (List.mem_cons_of_mem _ hq))
              (fun q hq => hGray q (List.mem_cons_of_mem _ hq))
              ⟨hVS, hSN, hSG, hBI, hSP, hSF⟩
            have hpG : p ∉ G := hGray p (List.mem_cons_self _ _) hpsome
            have hpkeys : p ∈ (s.map Course.courseId).toFinset := by
              rw [hVS] at hpv
              rcases Finset.mem_union.1 hpv with h1 | h1
              · exact h1
              · exact absurd h1 hpG
            obtain ⟨b, hbmem, hbid⟩ := List.mem_map.1
              (List.mem_toFinset.1 hpkeys)
            have hreachp : ∀ y, Reaches m p y → y ∈ v := by
              intro y hy
              exact (hBI b hbmem y (by rwa [hbid])).1
            refine ⟨hres.1, hres.2.1, ?_, ?_⟩
            · intro y hy
              rcases hres.2.2.1 y hy with hy2 | ⟨q, hq, hqs, hqr⟩
              · exact Or.inl hy2
              · exact Or.inr ⟨q, List.mem_cons_of_mem _ hq, hqs, hqr⟩
            · intro q hq hqs
              rcases List.mem_cons.1 hq with rfl | hq2
              · intro y hy
                exact hres.2.1 (hreachp y hy)
              · exact hres.2.2.2 q hq2 hqs
          · rw [if_neg hpv] at h
            cases hs : sub prereq v s with
            | none =>
                simp only [hs] at h
                exact Option.noConfusion h
            | some sout =>
                simp only [hs] at h
                have hsubres := hsub prereq v s G sout hs
                  (by rw [hpid]; exact hfc) (by rwa [hpid]) hGv
                  (by rw [hpid]
                      exact hacy p (List.mem_cons_self _ _) hpsome)
                  (fun g hg => by
                    rw [hpid]
                    exact hG3 g hg p (List.mem_cons_self _ _) hpsome)
                  hok
                have hres := ih sout.1 sout.2 G out h
                  (Finset.Subset.trans hGv hsubres.2.1)
                  (fun q hq => hacy q (List.mem_cons_of_mem _ hq))
                  (fun g hg q hq => hG3 g hg q (List.mem_cons_of_mem _ hq))
                  (fun q hq => hGray q (List.mem_cons_of_mem _ hq))
                  hsubres.1
                refine ⟨hres.1, Finset.Subset.trans hsubres.2.1 hres.2.1,
                  ?_, ?_⟩
                · intro y hy
                  rcases hres.2.2.1 y hy with hy2 | ⟨q, hq, hqs, hqr⟩
                  · rcases hsubres.2.2.1 y hy2 with hy3 | hy3
                    · exact Or.inl hy3
                    · exact Or.inr ⟨p, List.mem_cons_self _ _, hpsome,
                        by rwa [hpid] at hy3⟩
                  · exact Or.inr ⟨q, List.mem_cons_of_mem _ hq, hqs, hqr⟩
                · intro q hq hqs
                  rcases List.mem_cons.1 hq with rfl | hq2
                  · intro y hy
                    refine hres.2.1 (hsubres.2.2.2 y ?_)
                    rwa [hpid]
                  · exact hres.2.2.2 q hq2 hqs

theorem topoAux_inv (m : CMap) (hwf : WF m) :
    ∀ fuel c v s G out, topoAux m fuel c v s = some out →
      findCourse m c.courseId = some c → c.courseId ∉ v → G ⊆ v →
      (∀ x, Reaches m c.courseId x →
        ¬ Relation.TransGen (Edge m) x x) →
      (∀ g ∈ G, Reaches m g c.courseId) →
      StackOK m G v s →
      StackOK m G out.1 out.2 ∧ v ⊆ out.1 ∧
      (∀ y ∈ out.1, y ∈ v ∨ Reaches m c.courseId y) ∧
      (∀ y, Reaches m c.courseId y → y ∈ out.1) := by
  intro fuel
  induction fuel with
  | zero => intro c v s G out h; cases h
  | succ f ih =>
      intro c v s G out h hfc hcv hGv hacyc hG3 hok
      obtain ⟨hVS, hSN, hSG, hBI, hSP, hSF⟩ := hok
      have hstep : topoAux m (f + 1) c v s
          = match topoLoop m (topoAux m f) c.prereqs
              (insert c.courseId v) s with
            | none => none
            | some (v', st) => some (v', c :: st) := rfl
      rw [hstep] at h
      cases hloop : topoLoop m (topoAux m f) c.prereqs
          (insert c.courseId v) s with
      | none => rw [hloop] at h; cases h
      | some lout =>
          rw [hloop] at h
          obtain ⟨v', st⟩ := lout
          cases h
          have hcG : c.courseId ∉ G := fun hh => hcv (hGv hh)
          have hckeys : c.courseId ∉ (s.map Course.courseId).toFinset := by
            intro hh
            exact hcv (by rw [hVS]; exact Finset.mem_union_left _ hh)
          have hedge : ∀ p ∈ c.prereqs, (findCourse m p).isSome = true →
              Edge m c.courseId p := by
            intro p hp hps
            exact ⟨c, hfc, hp, hps⟩
          have hacy_ps : ∀ p ∈ c.prereqs, (findCourse m p).isSome = true →
              ∀ x, Reaches m p x → ¬ Relation.TransGen (Edge m) x x := by
            intro p hp hps x hx
            exact hacyc x (Relation.ReflTransGen.head (hedge p hp hps) hx)
          have hG3_ps : ∀ g ∈ insert c.courseId G, ∀ p ∈ c.prereqs,
              (findCourse m p).isSome = true → Reaches m g p := by
            intro g hg p hp hps
            rcases Finset.mem_insert.1 hg with rfl | hg2
            · exact Relation.ReflTransGen.single (hedge p hp hps)
            · exact Relation.ReflTransGen.tail (hG3 g hg2) (hedge p hp hps)
          have hGray_ps : ∀ p ∈ c.prereqs, (findCourse m p).isSome = true →
              p ∉ insert c.courseId G := by
            intro p hp hps hpG
            rcases Finset.mem_insert.1 hpG with heq | hpG2
            · subst heq
              exact hacyc _ Relation.ReflTransGen.refl
                (Relation.TransGen.single (hedge _ hp hps))
            · exact hacyc c.courseId Relation.ReflTransGen.refl
                (Relation.TransGen.head' (hedge p hp hps) (hG3 p hpG2))
          have hok1 : StackOK m (insert c.courseId G)
              (insert c.courseId v) s := by
            refine ⟨?_, hSN, ?_, ?_, hSP, hSF⟩
            · rw [hVS, Finset.union_insert]
            · intro id hid hidG
              rcases Finset.mem_insert.1 hidG with rfl | hid2
              · exact hckeys (List.mem_toFinset.2 hid)
              · exact hSG id hid hid2
            · intro b hb y hy
              have hold := hBI b hb y hy
              refine ⟨Finset.mem_insert_of_mem hold.1, ?_⟩
              intro hyG
              rcases Finset.mem_insert.1 hyG with heq | hy2
              · exact hcv (heq ▸ hold.1)
              · exact hold.2 hy2
          have hloopres := topoLoop_inv m hwf (topoAux m f)
            (fun c' v' s' G' out' h' => ih c' v' s' G' out' h')
            c.prereqs (insert c.courseId v) s (insert c.courseId G)
            (v', st) hloop
            (Finset.insert_subset_insert _ hGv)
            hacy_ps hG3_ps hGray_ps hok1
          obtain ⟨⟨hVS', hSN', hSG', hBI', hSP', hSF'⟩, hmono', ha1', ha2'⟩ :=
            hloopres
          have hVS2 : v' = (st.map Course.courseId).toFinset
              ∪ insert c.courseId G := hVS'
          have hSG2 : ∀ id ∈ st.map Course.courseId,
              id ∉ insert c.courseId G := hSG'
          have hBI2 : ∀ b ∈ st, ∀ y, Reaches m b.courseId y →
              y ∈ v' ∧ y ∉ insert c.courseId G := hBI'
          have hSP2 : List.Pairwise
              (fun a b => ¬ Relation.TransGen (Edge m)
                b.courseId a.courseId) st := hSP'
          have hSF2 : ∀ b ∈ st, findCourse m b.courseId = some b := hSF'
          have hSN2 : (st.map Course.courseId).Nodup := hSN'
          have hmono2 : insert c.courseId v ⊆ v' := hmono'
          have ha12 : ∀ y ∈ v', y ∈ insert c.courseId v ∨
              ∃ p ∈ c.prereqs, (findCourse m p).isSome = true ∧
                Reaches m p y := ha1'
          have ha22 : ∀ p ∈ c.prereqs, (findCourse m p).isSome = true →
              ∀ y, Reaches m p y → y ∈ v' := ha2'
          have hreachc : ∀ y, Reaches m c.courseId y → y ∈ v' := by
            intro y hy
            rcases Relation.ReflTransGen.cases_head hy with rfl | ⟨z, hz, hzy⟩
            · exact hmono2 (Finset.mem_insert_self _ _)
            · obtain ⟨ca, hca, hzmem, hzres⟩ := hz
              have hcac : ca = c := by
                rw [hfc] at hca
                exact (Option.some.inj hca).symm
              subst hcac
              exact ha22 z hzmem hzres y hzy
          have hcst : c.courseId ∉ (st.map Course.courseId).toFinset := by
            intro hh
            exact hSG2 c.courseId (List.mem_toFinset.1 hh)
              (Finset.mem_insert_self _ _)
          have hreachcG : ∀ y, Reaches m c.courseId y → y ∉ G := by
            intro y hy hyG
            by_cases hyc : y = c.courseId
            · subst hyc; exact hcG hyG
            · have htg : Relation.TransGen (Edge m) c.courseId y :=
                transGen_of_reflTransGen_ne hy (fun hh => hyc hh.symm)
              exact hacyc c.courseId Relation.ReflTransGen.refl
                (Relation.TransGen.trans_left htg (hG3 y hyG))
          refine ⟨⟨?_, ?_, ?_, ?_, ?_, ?_⟩, ?_, ?_, ?_⟩
          · show v' = ((c :: st).map Course.courseId).toFinset ∪ G
            rw [hVS2]
            simp only [List.map_cons, List.toFinset_cons]
            rw [Finset.union_insert, Finset.insert_union]
          · show ((c :: st).map Course.courseId).Nodup
            simp only [List.map_cons, List.nodup_cons]
            exact ⟨fun hh => hcst (List.mem_toFinset.2 hh), hSN2⟩
          · show ∀ id ∈ (c :: st).map Course.courseId, id ∉ G
            intro id hid
            simp only [List.map_cons] at hid
            rcases List.mem_cons.1 hid with rfl | hid2
            · exact hcG
            · exact fun hidG =>
                hSG2 id hid2 (Finset.mem_insert_of_mem hidG)
          · show ∀ b ∈ c :: st, ∀ y, Reaches m b.courseId y →
                y ∈ v' ∧ y ∉ G
            intro b hb y hy
            rcases List.mem_cons.1 hb with rfl | hb2
            · exact ⟨hreachc y hy, hreachcG y hy⟩
            · have hold := hBI2 b hb2 y hy
              exact ⟨hold.1,
                fun hyG => hold.2 (Finset.mem_insert_of_mem hyG)⟩
          · show List.Pairwise
                (fun a b => ¬ Relation.TransGen (Edge m)
                  b.courseId a.courseId) (c :: st)
            rw [List.pairwise_cons]
            refine ⟨?_, hSP2⟩
            intro b hb htg
            exact (hBI2 b hb c.courseId
              (Relation.TransGen.to_reflTransGen htg)).2
              (Finset.mem_insert_self _ _)
          · show ∀ b ∈ c :: st, findCourse m b.courseId = some b
            intro b hb
            rcases List.mem_cons.1 hb with rfl | hb2
            · exact hfc
            · exact hSF2 b hb2
          · show v ⊆ v'
            exact Finset.Subset.trans (Finset.subset_insert _ _) hmono2
          · show ∀ y ∈ v', y ∈ v ∨ Reaches m c.courseId y
            intro y hy
            rcases ha12 y hy with hy2 | ⟨p, hp, hps, hpr⟩
            · rcases Finset.mem_insert.1 hy2 with rfl | hy3
              · exact Or.inr Relation.ReflTransGen.refl
              · exact Or.inl hy3
            · exact Or.inr
                (Relation.ReflTransGen.head (hedge p hp hps) hpr)
          · exact hreachc

/-- C2: for a start key present in the catalog from which no cycle of
resolved prerequisite edges is reachable, `GetPrerequisiteOrder`
succeeds with a sequence that lists exactly the resolved transitive
prerequisites of the start key, each exactly once, excluding the start
key itself, and in which no record appears before any of its own
direct or transitive resolved prerequisites; a start key with no
prerequisites yields the empty sequence. -/
theorem claim_C2_topological_order (m : CMap) (k : String) (c : Course)
    (hwf : WF m) (hfind : findCourse m k = some c)
    (hacyc : NoCycleFrom m k) :
    ∃ R, GetPrerequisiteOrder m k = Except.ok R ∧
      (R.map Course.courseId).Nodup ∧
      (∀ x, x ∈ R.map Course.courseId ↔
        Relation.TransGen (Edge m) k x) ∧
      k ∉ R.map Course.courseId ∧
      List.Pairwise
        (fun a b => ¬ Relation.TransGen (Edge m) a.courseId b.courseId)
        R ∧
      (c.prereqs = [] → R = []) := by
  obtain ⟨b, hb, hiff⟩ := hasPrerequisiteCycle_spec m k c hwf hfind
  have hbf : b = false := by
    cases b with
    | false => rfl
    | true =>
        obtain ⟨y, hky, hyy⟩ := hiff.1 rfl
        exact absurd hyy (hacyc y hky)
  subst hbf
  have hcard : (keysF m \ (∅ : Finset String)).card < m.length + 1 := by
    rw [Finset.sdiff_empty]
    have := keysF_card_le m
    omega
  have htot := topoLoop_total m hwf (topoAux m (m.length + 1))
    (m.length + 1)
    (fun c' v' s' out' h' => topoAux_mono m (m.length + 1) c' v' s' out' h')
    (fun c' v' s' hk' hc' hcd' =>
      topoAux_total m hwf (m.length + 1) c' v' s' hk' hc' hcd')
    c.prereqs ∅ [] hcard
  cases hloop : topoLoop m (topoAux m (m.length + 1)) c.prereqs ∅ [] with
  | none => rw [hloop] at htot; cases htot
  | some lout =>
      obtain ⟨v', st⟩ := lout
      have hGPO : GetPrerequisiteOrder m k = Except.ok st.reverse := by
        unfold GetPrerequisiteOrder
        simp only [hfind, hb, hloop]
      have hinv := topoLoop_inv m hwf (topoAux m (m.length + 1))
        (topoAux_inv m hwf (m.length + 1))
        c.prereqs ∅ [] ∅ (v', st) hloop
        (Finset.Subset.refl ∅)
        (fun p hp hps x hx =>
          hacyc x (Relation.ReflTransGen.head ⟨c, hfind, hp, hps⟩ hx))
        (fun g hg => absurd hg (Finset.not_mem_empty g))
        (fun p _ _ => Finset.not_mem_empty p)
        ⟨by simp, List.nodup_nil, by simp, by simp, List.Pairwise.nil,
          by simp⟩
      obtain ⟨hok', hmono', ha1', ha2'⟩ := hinv
      obtain ⟨hVS', hSN', hSG', hBI', hSP', hSF'⟩ := hok'
      have hVS : v' = (st.map Course.courseId).toFinset ∪ ∅ := hVS'
      have hSN : (st.map Course.courseId).Nodup := hSN'
      have hSP : List.Pairwise
          (fun a b => ¬ Relation.TransGen (Edge m) b.courseId a.courseId)
          st := hSP'
      have ha1 : ∀ y ∈ v', y ∈ (∅ : Finset String) ∨
          ∃ p ∈ c.prereqs, (findCourse m p).isSome = true ∧
            Reaches m p y := ha1'
      have ha2 : ∀ p ∈ c.prereqs, (findCourse m p).isSome = true →
          ∀ y, Reaches m p y → y ∈ v' := ha2'
      have hmemIff : ∀ x, x ∈ st.map Course.courseId ↔
          Relation.TransGen (Edge m) k x := by
        intro x
        constructor
        · intro hx
          have hxv : x ∈ v' := by
            rw [hVS]
            exact Finset.mem_union_left _ (List.mem_toFinset.2 hx)
          rcases ha1 x hxv with hx2 | ⟨p, hp, hps, hpr⟩
          · exact absurd hx2 (Finset.not_mem_empty x)
          · exact Relation.TransGen.head' ⟨c, hfind, hp, hps⟩ hpr
        · intro htg
          rcases Relation.TransGen.head'_iff.1 htg with ⟨z, hz, hzx⟩
          obtain ⟨ca, hca, hzmem, hzres⟩ := hz
          have hcac : ca = c := by
            rw [hfind] at hca
            exact (Option.some.inj hca).symm
          subst hcac
          have hxv : x ∈ v' := ha2 z hzmem hzres x hzx
          rw [hVS] at hxv
          rcases Finset.mem_union.1 hxv with h1 | h1
          · exact List.mem_toFinset.1 h1
          · exact absurd h1 (Finset.not_mem_empty x)
      refine ⟨st.reverse, hGPO, ?_, ?_, ?_, ?_, ?_⟩
      · rw [List.map_reverse, List.nodup_reverse]
        exact hSN
      · intro x
        rw [List.map_reverse, List.mem_reverse]
        exact hmemIff x
      · rw [List.map_reverse]
        intro hkmem
        exact hacyc k Relation.ReflTransGen.refl
          ((hmemIff k).1 (List.mem_reverse.1 hkmem))
      · rw [List.pairwise_reverse]
        exact hSP
      · intro hps
        rw [hps] at hloop
        have h0 : (some ((∅ : Finset String), ([] : List Course))
            : Option (Finset String × List Course)) = some (v', st) :=
          hloop
        have hst : st = [] :=
          (congrArg Prod.snd (Option.some.inj h0)).symm
        rw [hst]
        rfl

/-- Witness for C2 on the chain catalog (`A` has no prerequisites, `B`
requires `A`, `C` requires `B`): linearizing from `CCC100` succeeds
and yields exactly `[courseA, courseB]` in that order. -/
theorem claim_C2_topological_order_witness :
    WF chainCat ∧ findCourse chainCat "CCC100" = some courseC ∧
    NoCycleFrom chainCat "CCC100" ∧
    (∃ R, GetPrerequisiteOrder chainCat "CCC100" = Except.ok R ∧
      (R.map Course.courseId).Nodup ∧
      (∀ x, x ∈ R.map Course.courseId ↔
        Relation.TransGen (Edge chainCat) "CCC100" x) ∧
      "CCC100" ∉ R.map Course.courseId ∧
      List.Pairwise
        (fun a b => ¬ Relation.TransGen (Edge chainCat)
          a.courseId b.courseId) R ∧
      (courseC.prereqs = [] → R = [])) ∧
    GetPrerequisiteOrder chainCat "CCC100"
      = Except.ok [courseA, courseB] := by
  have hwf : WF chainCat := by decide
  have hfind : findCourse chainCat "CCC100" = some courseC := by decide
  have hnc : NoCycleFrom chainCat "CCC100" := by
    obtain ⟨b, hb, hiff⟩ :=
      hasPrerequisiteCycle_spec chainCat "CCC100" courseC hwf hfind
    have hb0 : HasPrerequisiteCycle chainCat "CCC100"
        = Except.ok false := rfl
    rw [hb0] at hb
    have hbf : false = b := Except.ok.inj hb
    apply (not_cycleReachable_iff chainCat "CCC100").1
    intro hcyc
    have hbt := hiff.2 hcyc
    rw [← hbf] at hbt
    exact Bool.noConfusion hbt
  exact ⟨hwf, hfind, hnc,
    claim_C2_topological_order chainCat "CCC100" courseC hwf hfind hnc,
    rfl⟩

end CourseCatalog
